import Mathlib

/-!
Shallow embedding of the bidding scheduler of `electron_main.js`
(puppeteer-electron-quickstart).

The embedded fragment is the "BIDDING LOGIC" section of the main process:
`ensureLoggedIn`, `placeBid`, `handleUserBids`, the `fetch-auctions-data`
IPC handler (the "schedule all" pass), the `stop-update` handler
("cancel all pending") and the `close-all-windows` handler.

Modelling conventions:
* JS objects become Lean structures; string-typed numeric fields are
  modelled after the parse the code applies to them:
  - `auction.timeToBid` is a string, empty = falsy; the code checks
    `!auction.timeToBid` and otherwise parses it with `new Date`.  We model
    it as `Option Int` (milliseconds since epoch; `none` = empty string).
  - `auction.bidProxy` is a string fed to `parseFloat`; we model the parse
    result as `Option Rat` (`none` = NaN, i.e. a non-numeric string).
* The mutable module state (`browserMap`, `bidTimeouts`, the
  `credentials.json` file, the in-memory `auctions` array of the current
  scheduling pass) is threaded explicitly as a `BidState`.
* Remote page interactions (goto / waitForSelector / type / click /
  waitForNavigation) can fail; an oracle `Env.remote : Nat → Bool` decides,
  by a running counter `BidState.step`, whether each interaction succeeds.
  Browser launches (`puppeteer.launch` + `newPage`) can also fail, decided
  by a separate oracle `Env.launchOk` on the counter `BidState.launches`.
  In the source, page interactions sit inside `try/catch` while
  `puppeteer.launch` in `handleUserBids` does not: a launch failure rejects
  the per-account task and hence the `fetch-auctions-data` handler.
* Observable behaviour is recorded in a chronological `log : List Action`.
  `Action.attemptBid` marks the entry into `placeBid` (the source logs
  `[Bidding] placeBid => ...` there), `Action.loginStart` the entry into
  the login `try` block, `Action.saveOutcome` a successful `saveData` of a
  stamped outcome.  Console-only messages are not otherwise modelled.
* The `await Promise.all(tasks)` over accounts and the timer callbacks are
  modelled by one deterministic interleaving: accounts are processed
  sequentially in credential order, and due timers fire in ascending
  fire-time order (ties in registration order), which is the Node timer
  wheel's order.  The typed bid text `newBid.toFixed(2)` is recorded as
  the rational amount itself (`Action.typeAmount`).
-/

set_option linter.unusedVariables false

namespace Bidder

/-- Credential record of `credentials.json` (`{ id, username, password }`). -/
structure Credential where
  id : Nat
  username : String
  password : String
deriving DecidableEq, Repr

/-- Auction record of `credentials.json`.  `timeToBid` is the parsed
deadline (`none` = empty string), `bidProxy` the `parseFloat` of the bid
amount string (`none` = NaN), `bidPlaced` the recorded outcome timestamp
(`none` = empty string). -/
structure Auction where
  id : Nat
  timeToBid : Option Int
  idAuction : String
  bidProxy : Option Rat
  address : String
  account : String
  bidPlaced : Option Int
deriving DecidableEq, Repr

/-- Entry of `browserMap[username]`: the open browser/page pair is
identified by the key; we keep the `isLoggedIn` flag. -/
structure Session where
  isLoggedIn : Bool
deriving DecidableEq, Repr

/-- Contents of the `credentials.json` file (the durable record store). -/
structure Store where
  credentials : List Credential
  auctions : List Auction
deriving DecidableEq, Repr

/-- Observable actions of the bidding pipeline. -/
inductive Action where
  | launch (user : String)
  | loginStart (user : String)
  | navigate (user : String) (url : String)
  | waitFor (user : String) (sel : String)
  | typeText (user : String) (sel : String) (text : String)
  | typeAmount (user : String) (sel : String) (amount : Rat)
  | click (user : String) (sel : String)
  | waitNav (user : String)
  | settle (user : String) (ms : Nat)
  | attemptBid (a : Auction) (user : String)
  | saveOutcome (auctionId : Nat) (time : Int)
deriving DecidableEq, Repr

/-- Entry of the `bidTimeouts` array plus the data the `setTimeout`
closure captures: the delay the timer was registered with, the arming
instant, and the auction object. -/
structure Timer where
  timeoutId : Nat
  delay : Int
  armedAt : Int
  auctionId : Nat
  username : String
  auction : Auction
deriving DecidableEq, Repr

/-- The mutable state of the main process relevant to bidding. -/
structure BidState where
  browserMap : List (String × Session)
  bidTimeouts : List Timer
  store : Store
  memAuctions : List Auction
  nextTimeoutId : Nat
  step : Nat
  launches : Nat
  log : List Action
deriving DecidableEq, Repr

/-- Failure oracles for the external world: `remote n` decides whether the
`n`-th remote page interaction succeeds, `launchOk n` whether the `n`-th
browser launch succeeds. -/
structure Env where
  remote : Nat → Bool
  launchOk : Nat → Bool

/-- Association-list lookup for `browserMap[username]`. -/
def lookupSession : List (String × Session) → String → Option Session
  | [], _ => none
  | (k, v) :: rest, u => if k = u then some v else lookupSession rest u

/-- Set `browserMap[username].isLoggedIn = true`. -/
def setLoggedIn (m : List (String × Session)) (u : String) : List (String × Session) :=
  m.map (fun kv => if kv.1 = u then (kv.1, { kv.2 with isLoggedIn := true }) else kv)

/-- The eligibility test `parseFloat(a.bidProxy) > 0` (NaN compares false). -/
def posBid (a : Auction) : Bool :=
  match a.bidProxy with
  | some q => decide (0 < q)
  | none => false

/-- Append one action to the log. -/
def logAct (s : BidState) (act : Action) : BidState :=
  { s with log := s.log ++ [act] }

/-- Remote page interactions are fallible; the marker actions and the
fixed 3s settle delay are not. -/
def fallibleAct : Action → Bool
  | .navigate _ _ => true
  | .waitFor _ _ => true
  | .typeText _ _ _ => true
  | .typeAmount _ _ _ => true
  | .click _ _ => true
  | .waitNav _ => true
  | _ => false

/-- Number of fallible interactions in a step list. -/
def numFallible (l : List Action) : Nat := l.countP fallibleAct

/-- Run a `try`-block of interactions in order: each fallible step
consumes one oracle value; the first failure aborts the rest (the thrown
error is caught by the enclosing `catch`).  Returns whether every step
succeeded, together with the updated state. -/
def runSteps (env : Env) : List Action → BidState → Bool × BidState
  | [], s => (true, s)
  | act :: rest, s =>
      if fallibleAct act then
        let ok := env.remote s.step
        let s1 : BidState := { s with log := s.log ++ [act], step := s.step + 1 }
        if ok then runSteps env rest s1 else (false, s1)
      else
        runSteps env rest { s with log := s.log ++ [act] }

/-- The interaction sequence of the login `try` block of `ensureLoggedIn`
(lines 137-147 of `electron_main.js`): goto login page, wait + type
username, wait + type password, click submit together with
`waitForNavigation`. -/
def loginSteps (u p : String) : List Action :=
  [ .navigate u "https://www.civicsource.com/login/"
  , .waitFor u "input[name=\"username\"]"
  , .typeText u "input[name=\"username\"]" u
  , .waitFor u "input[name=\"password\"]"
  , .typeText u "input[name=\"password\"]" p
  , .click u "button[type=\"submit\"]"
  , .waitNav u ]

/-- Model of `ensureLoggedIn(username, password, page)`: skip when
`browserMap[username].isLoggedIn`; otherwise run the login sequence and
mark the session logged in on success; any failure is caught and logged
and leaves `isLoggedIn` false.  (Callers always register the session
before calling; the `none` branch is unreachable from them.) -/
def ensureLoggedIn (env : Env) (username password : String) (s : BidState) : BidState :=
  match lookupSession s.browserMap username with
  | none => s
  | some sess =>
    if sess.isLoggedIn then s
    else
      let s1 := logAct s (.loginStart username)
      let r := runSteps env (loginSteps username password) s1
      if r.1 then { r.2 with browserMap := setLoggedIn r.2.browserMap username } else r.2

/-- Remove every `/` from a string (the `replace(/\//g, '')` of line 164). -/
def stripSlashes (str : String) : String :=
  String.mk (str.data.filter (fun c => c ≠ '/'))

/-- The derived bid-input element id:
`auction.idAuction.toUpperCase().replace(/\//g, '') + '-place-bid-input'`. -/
def inputId (a : Auction) : String :=
  stripSlashes a.idAuction.toUpper ++ "-place-bid-input"

/-- Auction detail page URL (line 161). -/
def bidUrl (a : Auction) : String :=
  "https://www.civicsource.com/auctions/" ++ a.idAuction

/-- The interaction sequence of the `placeBid` `try` block (lines
158-182): navigate to the detail page, wait for the bid input, triple
click (select all), type the amount (`parseFloat(bidProxy) || 0`,
formatted `toFixed(2)`), wait + click the first "Place Bid" button,
fixed 3s settle delay, wait + click the confirmation button. -/
def bidSteps (a : Auction) (u : String) : List Action :=
  let sel := "#" ++ inputId a
  let newBid : Rat := a.bidProxy.getD 0
  [ .navigate u (bidUrl a)
  , .waitFor u sel
  , .click u sel
  , .typeAmount u sel newBid
  , .waitFor u "button[type=\"submit\"] span[title=\"Place Bid\"]"
  , .click u "button[type=\"submit\"] span[title=\"Place Bid\"]"
  , .settle u 3000
  , .waitFor u "div.text-center button[type=\"submit\"]"
  , .click u "div.text-center button[type=\"submit\"]" ]

/-- Stamp an auction's outcome timestamp (`auction.bidPlaced = nowStr`). -/
def stampAuction (now : Int) (a : Auction) : Auction :=
  { a with bidPlaced := some now }

/-- Model of `placeBid(auction, page)` (lines 155-196).  Logs the entry,
runs the interaction sequence; on full success it stamps the in-memory
auction object (visible through `memAuctions`, object identity modelled
by the unique `id`), reloads the store, stamps the first record with a
matching `id` if any and persists (`saveData`), else persists nothing.
Any interaction error is caught: the store and outcome fields are left
untouched. -/
def placeBid (env : Env) (now : Int) (a : Auction) (u : String) (s : BidState) : BidState :=
  let s0 := logAct s (.attemptBid a u)
  let r := runSteps env (bidSteps a u) s0
  if r.1 then
    let s1 := r.2
    let s2 : BidState :=
      { s1 with memAuctions :=
          s1.memAuctions.map (fun x => if x.id = a.id then stampAuction now x else x) }
    match s2.store.auctions.findIdx? (fun x => x.id == a.id) with
    | some i =>
        let auctions1 := s2.store.auctions.set i
          (stampAuction now (s2.store.auctions.getD i a))
        let s3 : BidState := { s2 with store := { s2.store with auctions := auctions1 } }
        logAct s3 (.saveOutcome a.id now)
    | none => s2
  else r.2

/-- One iteration of the `for (const auction of auctionsToBid)` loop of
`handleUserBids` (lines 218-239): skip when the deadline string is empty;
with `diff = targetTime - now`, bid immediately when `diff <= 0`, else
register a timer for exactly `diff` and push it onto `bidTimeouts`. -/
def processAuction (env : Env) (now : Int) (u : String) (st : BidState) (a : Auction) : BidState :=
  match a.timeToBid with
  | none => st
  | some t =>
      let diff := t - now
      if diff ≤ 0 then placeBid env now a u st
      else
        { st with
            bidTimeouts := st.bidTimeouts ++
              [⟨st.nextTimeoutId, diff, now, a.id, u, a⟩],
            nextTimeoutId := st.nextTimeoutId + 1 }

/-- Model of `handleUserBids(cred, userAuctions)` (lines 197-240).
Filter to the positive-`bidProxy` auctions; return unchanged when none.
Launch a browser when the account has no session (`puppeteer.launch` is
not inside a `try`: a launch failure throws out of the task, reported by
the `Bool` component).  Then log in once and process each eligible
auction in iteration order. -/
def handleUserBids (env : Env) (now : Int) (cred : Credential)
    (userAuctions : List Auction) (s : BidState) : BidState × Bool :=
  let auctionsToBid := userAuctions.filter posBid
  if auctionsToBid.isEmpty then (s, false)
  else
    match lookupSession s.browserMap cred.username with
    | some _ =>
        let s2 := ensureLoggedIn env cred.username cred.password s
        (auctionsToBid.foldl (processAuction env now cred.username) s2, false)
    | none =>
        let ok := env.launchOk s.launches
        let s1 : BidState :=
          { s with launches := s.launches + 1, log := s.log ++ [.launch cred.username] }
        if ok then
          let s1b := { s1 with
            browserMap := s1.browserMap ++ [(cred.username, ⟨false⟩)] }
          let s2 := ensureLoggedIn env cred.username cred.password s1b
          (auctionsToBid.foldl (processAuction env now cred.username) s2, false)
        else (s1, true)

/-- The per-account grouping of the `fetch-auctions-data` handler: the
group an account's credential looks up is exactly the auctions whose
non-empty `account` field equals the username, in file order. -/
def userAuctionsFor (auctions : List Auction) (username : String) : List Auction :=
  auctions.filter (fun a => a.account ≠ "" ∧ a.account = username)

/-- Model of the `fetch-auctions-data` IPC handler (lines 269-298, the
"schedule all" pass): clear every pending timer, load the store, return
the auctions unchanged when either collection is empty, group auctions by
account, run `handleUserBids` per credential with a non-empty group
(modelled sequentially in credential order), and return the (possibly
partially updated) in-memory auction array — unless some per-account task
threw (browser launch failure), in which case the handler rejects
(`Except.error`).  `schedStep` is the body of the `for (const cred of
credentials)` loop that builds and runs the per-account tasks. -/
def schedStep (env : Env) (now : Int) (auctions : List Auction)
    (acc : BidState × Bool) (cred : Credential) : BidState × Bool :=
  let ua := userAuctionsFor auctions cred.username
  if ua.isEmpty then acc
  else
    let r := handleUserBids env now cred ua acc.1
    (r.1, acc.2 || r.2)

/-- Model of the complete `fetch-auctions-data` handler: clear all pending
timers, load the store, short-circuit on empty collections, then run the
per-credential tasks (one `schedStep` per credential) and return the
in-memory auction array, or reject when some task threw. -/
def fetchAuctionsData (env : Env) (now : Int) (s : BidState) :
    Except Unit (List Auction) × BidState :=
  let s0 : BidState := { s with bidTimeouts := [] }
  let credentials := s0.store.credentials
  let auctions := s0.store.auctions
  let s1 : BidState := { s0 with memAuctions := auctions }
  if credentials.isEmpty || auctions.isEmpty then (.ok auctions, s1)
  else
    let res := credentials.foldl (schedStep env now auctions) (s1, false)
    if res.2 then (.error (), res.1) else (.ok res.1.memAuctions, res.1)

/-- Model of the `stop-update` IPC handler (lines 302-308, "cancel all
pending"): clear every timeout and empty `bidTimeouts`; browsers (and
their login state) are untouched. -/
def stopUpdate (s : BidState) : String × BidState :=
  ("All scheduled bids canceled. Browsers remain open.", { s with bidTimeouts := [] })

/-- Model of the `close-all-windows` IPC handler (lines 310-321): close
every browser and clear the registry; pending timers are not cancelled. -/
def closeAllWindows (s : BidState) : String × BidState :=
  ("All browser windows closed.", { s with browserMap := [] })

/-- Absolute fire time of an armed timer. -/
def fireAt (tm : Timer) : Int := tm.armedAt + tm.delay

/-- Stable insertion into a list sorted by ascending fire time. -/
def insertByFire (tm : Timer) : List Timer → List Timer
  | [] => [tm]
  | x :: xs => if fireAt tm ≤ fireAt x then tm :: x :: xs else x :: insertByFire tm xs

/-- Stable sort by ascending fire time (Node fires due timers in
ascending due-time order, ties in registration order). -/
def sortByFire (l : List Timer) : List Timer := l.foldr insertByFire []

/-- Advance wall-clock time to `t`: every timer whose fire time has
arrived fires (its callback runs `placeBid` on the captured auction and
page), in the Node timer order; fired timers do not fire again. -/
def fireDue (env : Env) (t : Int) (s : BidState) : BidState :=
  let due := sortByFire (s.bidTimeouts.filter (fun tm => decide (fireAt tm ≤ t)))
  let remaining := s.bidTimeouts.filter (fun tm => decide (¬ fireAt tm ≤ t))
  let s1 : BidState := { s with bidTimeouts := remaining }
  due.foldl (fun st tm => placeBid env t tm.auction tm.username st) s1

/-! ### Specification-side descriptions of a scheduling pass -/

/-- Timers are compared on what they schedule: the auction, the account
and the registered delay (the `timeoutId` handle is incidental). -/
def timerSpec (tm : Timer) : Auction × String × Int :=
  (tm.auction, tm.username, tm.delay)

/-- What one eligible auction contributes to the armed timers. -/
def armedSpecOne (now : Int) (u : String) (a : Auction) : List (Auction × String × Int) :=
  match a.timeToBid with
  | none => []
  | some t => if t - now ≤ 0 then [] else [(a, u, t - now)]

/-- What one eligible auction contributes to the immediate bid attempts. -/
def immSpecOne (now : Int) (u : String) (a : Auction) : List (Auction × String) :=
  match a.timeToBid with
  | none => []
  | some t => if t - now ≤ 0 then [(a, u)] else []

/-- The timers a single account's pass arms, in order. -/
def armedSpec (now : Int) (u : String) (l : List Auction) : List (Auction × String × Int) :=
  (l.filter posBid).flatMap (armedSpecOne now u)

/-- The immediate bid attempts of a single account's pass, in order. -/
def immediateSpec (now : Int) (u : String) (l : List Auction) : List (Auction × String) :=
  (l.filter posBid).flatMap (immSpecOne now u)

/-- Project the bid attempt recorded by one action, if any. -/
def attemptOf : Action → Option (Auction × String)
  | .attemptBid a u => some (a, u)
  | _ => none

/-- The bid attempts recorded in a log, in order. -/
def attemptsOf (l : List Action) : List (Auction × String) :=
  l.filterMap attemptOf

/-- The timers a whole scheduling pass arms for a given store. -/
def schedSpec (now : Int) (store : Store) : List (Auction × String × Int) :=
  if store.credentials.isEmpty || store.auctions.isEmpty then []
  else store.credentials.flatMap
    (fun cred => armedSpec now cred.username (userAuctionsFor store.auctions cred.username))

/-- The immediate bid attempts of a whole scheduling pass. -/
def schedAttempts (now : Int) (store : Store) : List (Auction × String) :=
  if store.credentials.isEmpty || store.auctions.isEmpty then []
  else store.credentials.flatMap
    (fun cred => immediateSpec now cred.username (userAuctionsFor store.auctions cred.username))

/-! ### Basic lemmas: logs and step runs -/

theorem attemptsOf_append (l1 l2 : List Action) :
    attemptsOf (l1 ++ l2) = attemptsOf l1 ++ attemptsOf l2 := by
  simp [attemptsOf]

theorem runSteps_preserve (env : Env) (steps : List Action) : ∀ s : BidState,
    (runSteps env steps s).2.browserMap = s.browserMap ∧
    (runSteps env steps s).2.bidTimeouts = s.bidTimeouts ∧
    (runSteps env steps s).2.store = s.store ∧
    (runSteps env steps s).2.memAuctions = s.memAuctions ∧
    (runSteps env steps s).2.nextTimeoutId = s.nextTimeoutId ∧
    (runSteps env steps s).2.launches = s.launches := by
  induction steps with
  | nil => intro s; simp [runSteps]
  | cons act rest ih =>
    intro s
    by_cases hf : fallibleAct act = true
    · by_cases henv : env.remote s.step = true
      · simpa [runSteps, hf, henv] using ih _
      · simp [runSteps, hf, henv]
    · simpa [runSteps, hf] using ih _

theorem runSteps_log (env : Env) (steps : List Action) : ∀ s : BidState,
    ∃ k, k ≤ steps.length ∧ (runSteps env steps s).2.log = s.log ++ steps.take k := by
  induction steps with
  | nil => intro s; exact ⟨0, by simp, by simp [runSteps]⟩
  | cons act rest ih =>
    intro s
    by_cases hf : fallibleAct act = true
    · by_cases henv : env.remote s.step = true
      · obtain ⟨k, hk, hlog⟩ := ih { s with log := s.log ++ [act], step := s.step + 1 }
        refine ⟨k + 1, by simpa using Nat.succ_le_succ hk, ?_⟩
        simp [runSteps, hf, henv, hlog, List.take_succ_cons]
      · exact ⟨1, by simp, by simp [runSteps, hf, henv, List.take_succ_cons]⟩
    · obtain ⟨k, hk, hlog⟩ := ih { s with log := s.log ++ [act] }
      refine ⟨k + 1, by simpa using Nat.succ_le_succ hk, ?_⟩
      simp [runSteps, hf, hlog, List.take_succ_cons]

theorem runSteps_ok_iff (env : Env) (steps : List Action) : ∀ s : BidState,
    ((runSteps env steps s).1 = true ↔
      ∀ i, i < numFallible steps → env.remote (s.step + i) = true) := by
  induction steps with
  | nil => intro s; simp [runSteps, numFallible]
  | cons act rest ih =>
    intro s
    by_cases hf : fallibleAct act = true
    · have hnf : numFallible (act :: rest) = numFallible rest + 1 := by
        simp [numFallible, List.countP_cons, hf]
      by_cases henv : env.remote s.step = true
      · have hrw : (runSteps env (act :: rest) s).1 =
            (runSteps env rest { s with log := s.log ++ [act], step := s.step + 1 }).1 := by
          simp [runSteps, hf, henv]
        rw [hrw, ih, hnf]
        constructor
        · intro h i hi
          match i, hi with
          | 0, _ => simpa using henv
          | (j+1), hj =>
            have hj2 : j < numFallible rest := by omega
            have := h j hj2
            rwa [show s.step + 1 + j = s.step + (j + 1) from by omega] at this
        · intro h i hi
          have := h (i + 1) (by omega)
          rwa [show s.step + (i + 1) = s.step + 1 + i from by omega] at this
      · have hrw : (runSteps env (act :: rest) s).1 = false := by
          simp [runSteps, hf, henv]
        rw [hrw, hnf]
        constructor
        · intro h; exact absurd h (by simp)
        · intro h
          have := h 0 (by omega)
          simp at this
          exact absurd this henv
    · have hnf : numFallible (act :: rest) = numFallible rest := by
        simp [numFallible, List.countP_cons, hf]
      have hrw : (runSteps env (act :: rest) s).1 =
          (runSteps env rest { s with log := s.log ++ [act] }).1 := by
        simp [runSteps, hf]
      rw [hrw, ih, hnf]

theorem loginSteps_fallible (u p : String) :
    ∀ act ∈ loginSteps u p, fallibleAct act = true := by
  intro act h
  simp [loginSteps] at h
  rcases h with h|h|h|h|h|h|h <;> subst h <;> rfl

theorem bidSteps_shape (a : Auction) (u : String) :
    ∀ act ∈ bidSteps a u, fallibleAct act = true ∨ act = Action.settle u 3000 := by
  intro act h
  simp [bidSteps] at h
  rcases h with h|h|h|h|h|h|h|h|h <;> subst h <;> simp [fallibleAct]

/-! ### placeBid lemmas -/

theorem placeBid_of_fail (env : Env) (now : Int) (a : Auction) (u : String) (s : BidState)
    (h : (runSteps env (bidSteps a u) (logAct s (Action.attemptBid a u))).1 = false) :
    placeBid env now a u s = (runSteps env (bidSteps a u) (logAct s (Action.attemptBid a u))).2 := by
  simp [placeBid, h]

theorem placeBid_fields (env : Env) (now : Int) (a : Auction) (u : String) (s : BidState) :
    (placeBid env now a u s).browserMap = s.browserMap ∧
    (placeBid env now a u s).bidTimeouts = s.bidTimeouts ∧
    (placeBid env now a u s).nextTimeoutId = s.nextTimeoutId ∧
    (placeBid env now a u s).launches = s.launches := by
  have h := runSteps_preserve env (bidSteps a u) (logAct s (Action.attemptBid a u))
  simp only [logAct] at h
  rw [placeBid]
  split
  · dsimp only
    split <;> simp_all [logAct]
  · simp_all [logAct]

theorem placeBid_log_decomp (env : Env) (now : Int) (a : Auction) (u : String) (s : BidState) :
    ∃ l, (placeBid env now a u s).log = s.log ++ Action.attemptBid a u :: l ∧
      ∀ act ∈ l, act ∈ bidSteps a u ∨ act = Action.saveOutcome a.id now := by
  obtain ⟨k, hk, hlog⟩ := runSteps_log env (bidSteps a u) (logAct s (Action.attemptBid a u))
  simp only [logAct] at hlog
  rw [placeBid]
  split
  · dsimp only
    split
    · refine ⟨(bidSteps a u).take k ++ [Action.saveOutcome a.id now], ?_, ?_⟩
      · simp [logAct, hlog]
      · intro act hact
        rcases List.mem_append.1 hact with h1 | h1
        · exact Or.inl (List.take_subset _ _ h1)
        · simp at h1; subst h1; simp
    · refine ⟨(bidSteps a u).take k, ?_, ?_⟩
      · simpa [logAct] using hlog
      · intro act hact; exact Or.inl (List.take_subset _ _ hact)
  · refine ⟨(bidSteps a u).take k, ?_, ?_⟩
    · simpa [logAct] using hlog
    · intro act hact; exact Or.inl (List.take_subset _ _ hact)

theorem attemptOf_eq_none {act : Action}
    (h : ∀ b v, act ≠ Action.attemptBid b v) : attemptOf act = none := by
  cases act with
  | attemptBid b v => exact absurd rfl (h b v)
  | _ => rfl

theorem attemptsOf_eq_nil {l : List Action}
    (h : ∀ act ∈ l, ∀ b v, act ≠ Action.attemptBid b v) : attemptsOf l = [] := by
  induction l with
  | nil => rfl
  | cons x xs ih =>
    have htail : attemptsOf xs = [] :=
      ih (fun act hact => h act (List.mem_cons_of_mem _ hact))
    have hx : attemptOf x = none := attemptOf_eq_none (h x (by simp))
    simp only [attemptsOf, List.filterMap_cons, hx] at htail ⊢
    exact htail

theorem bidSteps_ne_attempt (a : Auction) (u : String) :
    ∀ act ∈ bidSteps a u, ∀ b v, act ≠ Action.attemptBid b v := by
  intro act h b v
  rcases bidSteps_shape a u act h with hf | hs
  · intro he; subst he; simp [fallibleAct] at hf
  · subst hs; simp

theorem attemptsOf_single (a : Auction) (u : String) :
    attemptsOf [Action.attemptBid a u] = [(a, u)] := rfl

theorem placeBid_attempts (env : Env) (now : Int) (a : Auction) (u : String) (s : BidState) :
    attemptsOf (placeBid env now a u s).log = attemptsOf s.log ++ [(a, u)] := by
  obtain ⟨l, hl, hmem⟩ := placeBid_log_decomp env now a u s
  have h0 : attemptsOf l = [] := attemptsOf_eq_nil (by
    intro act hact b v
    rcases hmem act hact with h1 | h1
    · exact bidSteps_ne_attempt a u act h1 b v
    · subst h1; simp)
  rw [hl, show s.log ++ Action.attemptBid a u :: l
       = (s.log ++ [Action.attemptBid a u]) ++ l by simp,
     attemptsOf_append, attemptsOf_append, attemptsOf_single, h0]
  simp

theorem placeBid_mem_log (env : Env) (now : Int) (a : Auction) (u : String) (s : BidState)
    (act : Action) (h : act ∈ (placeBid env now a u s).log) :
    act ∈ s.log ∨ act = Action.attemptBid a u ∨ act ∈ bidSteps a u ∨
      act = Action.saveOutcome a.id now := by
  obtain ⟨l, hl, hmem⟩ := placeBid_log_decomp env now a u s
  rw [hl] at h
  rcases List.mem_append.1 h with h1 | h1
  · exact Or.inl h1
  · rcases List.mem_cons.1 h1 with h2 | h2
    · exact Or.inr (Or.inl h2)
    · rcases hmem act h2 with h3 | h3
      · exact Or.inr (Or.inr (Or.inl h3))
      · exact Or.inr (Or.inr (Or.inr h3))

theorem placeBid_store_credentials (env : Env) (now : Int) (a : Auction) (u : String)
    (s : BidState) :
    (placeBid env now a u s).store.credentials = s.store.credentials := by
  have h := (runSteps_preserve env (bidSteps a u) (logAct s (Action.attemptBid a u))).2.2.1
  simp only [logAct] at h
  rw [placeBid]
  split
  · dsimp only
    split <;> simp_all [logAct]
  · simp_all [logAct]

theorem map_id_set_stamp (now : Int) : ∀ (l : List Auction) (i : Nat) (d : Auction),
    i < l.length →
    (l.set i (stampAuction now (l.getD i d))).map Auction.id = l.map Auction.id := by
  intro l
  induction l with
  | nil => intro i d h; simp at h
  | cons x xs ih =>
    intro i d h
    cases i with
    | zero => simp [stampAuction]
    | succ j =>
      have hg : (x :: xs).getD (j + 1) d = xs.getD j d := by simp
      simp only [List.set_cons_succ, List.map_cons, hg]
      rw [ih j d (by simpa using h)]

theorem placeBid_store_ids (env : Env) (now : Int) (a : Auction) (u : String) (s : BidState) :
    (placeBid env now a u s).store.auctions.map Auction.id
      = s.store.auctions.map Auction.id := by
  have h : (runSteps env (bidSteps a u) (logAct s (Action.attemptBid a u))).2.store
      = s.store :=
    (runSteps_preserve env (bidSteps a u) (logAct s (Action.attemptBid a u))).2.2.1
  rw [placeBid]
  split
  · dsimp only
    split
    · rename_i i hi
      rw [h] at hi
      have hlt : i < s.store.auctions.length := by
        rcases (List.findIdx?_eq_some_iff_getElem).1 hi with ⟨hl, _, _⟩
        exact hl
      simp only [logAct] at h ⊢
      rw [h]
      exact map_id_set_stamp now s.store.auctions i a hlt
    · simp_all [logAct]
  · simp_all [logAct]

theorem placeBid_fail_core (env : Env) (now : Int) (a : Auction) (u : String) (s : BidState)
    (hfail : ∃ i, i < numFallible (bidSteps a u) ∧ env.remote (s.step + i) = false) :
    (placeBid env now a u s).store = s.store ∧
    (placeBid env now a u s).memAuctions = s.memAuctions ∧
    ∃ k, k ≤ (bidSteps a u).length ∧
      (placeBid env now a u s).log = s.log ++ Action.attemptBid a u :: (bidSteps a u).take k := by
  have hok : (runSteps env (bidSteps a u) (logAct s (Action.attemptBid a u))).1 = false := by
    cases hb : (runSteps env (bidSteps a u) (logAct s (Action.attemptBid a u))).1
    · rfl
    · exfalso
      have hall := (runSteps_ok_iff env (bidSteps a u) (logAct s (Action.attemptBid a u))).1 hb
      rcases hfail with ⟨i, hi, hf⟩
      have hthis := hall i hi
      simp only [logAct] at hthis
      rw [hf] at hthis
      exact Bool.false_ne_true hthis
  rw [placeBid_of_fail env now a u s hok]
  have hpre := runSteps_preserve env (bidSteps a u) (logAct s (Action.attemptBid a u))
  obtain ⟨k, hk, hlog⟩ := runSteps_log env (bidSteps a u) (logAct s (Action.attemptBid a u))
  refine ⟨hpre.2.2.1, hpre.2.2.2.1, k, hk, ?_⟩
  simpa [logAct] using hlog

theorem placeBid_ok_core (env : Env) (now : Int) (a : Auction) (u : String) (s : BidState)
    (hok : ∀ i, i < numFallible (bidSteps a u) → env.remote (s.step + i) = true) :
    (placeBid env now a u s).memAuctions
        = s.memAuctions.map (fun x => if x.id = a.id then stampAuction now x else x) ∧
    (∀ i, s.store.auctions.findIdx? (fun x => x.id == a.id) = some i →
       Action.saveOutcome a.id now ∈ (placeBid env now a u s).log ∧
       ∃ x ∈ (placeBid env now a u s).store.auctions, x.id = a.id ∧ x.bidPlaced = some now) ∧
    (s.store.auctions.findIdx? (fun x => x.id == a.id) = none →
       (placeBid env now a u s).store = s.store) := by
  have hru : (runSteps env (bidSteps a u) (logAct s (Action.attemptBid a u))).1 = true := by
    rw [runSteps_ok_iff]
    intro i hi
    simpa [logAct] using hok i hi
  have hsto : (runSteps env (bidSteps a u) (logAct s (Action.attemptBid a u))).2.store
      = s.store :=
    (runSteps_preserve env (bidSteps a u) (logAct s (Action.attemptBid a u))).2.2.1
  have hmem : (runSteps env (bidSteps a u) (logAct s (Action.attemptBid a u))).2.memAuctions
      = s.memAuctions :=
    (runSteps_preserve env (bidSteps a u) (logAct s (Action.attemptBid a u))).2.2.2.1
  rw [placeBid]
  dsimp only
  rw [hru, if_pos rfl, hsto]
  split
  · rename_i i hfind
    rcases (List.findIdx?_eq_some_iff_getElem).1 hfind with ⟨hlt, hp, _⟩
    have hid : (s.store.auctions[i]).id = a.id := by simpa using hp
    have hgetD : s.store.auctions.getD i a = s.store.auctions[i] := by
      simp [List.getD_eq_getElem?_getD, List.getElem?_eq_getElem hlt]
    refine ⟨?_, ?_, ?_⟩
    · exact congrArg
        (List.map fun (x : Auction) => if x.id = a.id then stampAuction now x else x) hmem
    · intro j hj
      refine ⟨by simp [logAct], ?_⟩
      have hlt2 : i < (s.store.auctions.set i
          (stampAuction now (s.store.auctions[i]))).length := by simpa using hlt
      refine ⟨stampAuction now (s.store.auctions[i]), ?_, ?_, ?_⟩
      · have hge := List.getElem_set_self (l := s.store.auctions) (i := i)
          (a := stampAuction now (s.store.auctions[i])) hlt2
        have hmm := List.getElem_mem hlt2
        rw [hge] at hmm
        simpa [logAct, List.getElem?_eq_getElem hlt] using hmm
      · simpa [stampAuction] using hid
      · simp [stampAuction]
    · intro hnone
      rw [hfind] at hnone
      exact Option.noConfusion hnone
  · rename_i hfind
    refine ⟨congrArg
      (List.map fun (x : Auction) => if x.id = a.id then stampAuction now x else x) hmem,
      ?_, fun _ => rfl⟩
    intro i hsome
    rw [hfind] at hsome
    exact Option.noConfusion hsome

/-! ### lookupSession and ensureLoggedIn lemmas -/

theorem setLoggedIn_cons (k : String) (sess : Session) (rest : List (String × Session))
    (u : String) :
    setLoggedIn ((k, sess) :: rest) u =
      (if k = u then (k, { isLoggedIn := true }) else (k, sess)) :: setLoggedIn rest u := rfl

theorem lookupSession_cons (k : String) (sess : Session) (rest : List (String × Session))
    (v : String) :
    lookupSession ((k, sess) :: rest) v =
      if k = v then some sess else lookupSession rest v := rfl

theorem lookupSession_setLoggedIn_ne (u v : String) (h : v ≠ u) :
    ∀ m : List (String × Session),
      lookupSession (setLoggedIn m u) v = lookupSession m v := by
  intro m
  induction m with
  | nil => rfl
  | cons kv rest ih =>
    obtain ⟨k, sess⟩ := kv
    by_cases hk : k = u
    · rw [setLoggedIn_cons, if_pos hk, lookupSession_cons, lookupSession_cons]
      have hkv : ¬ (k = v) := by rw [hk]; exact fun hh => h hh.symm
      rw [if_neg hkv, if_neg hkv, ih]
    · rw [setLoggedIn_cons, if_neg hk, lookupSession_cons, lookupSession_cons, ih]

theorem lookupSession_append (m1 m2 : List (String × Session)) (v : String) :
    lookupSession (m1 ++ m2) v =
      match lookupSession m1 v with
      | some x => some x
      | none => lookupSession m2 v := by
  induction m1 with
  | nil => simp [lookupSession]
  | cons kv rest ih =>
    obtain ⟨k, sess⟩ := kv
    by_cases hk : k = v <;> simp [List.cons_append, lookupSession_cons, hk, ih]

theorem ensureLoggedIn_of_loggedIn (env : Env) (u p : String) (s : BidState) (sess : Session)
    (hs : lookupSession s.browserMap u = some sess) (h : sess.isLoggedIn = true) :
    ensureLoggedIn env u p s = s := by
  rw [ensureLoggedIn, hs]
  simp [h]

theorem ensureLoggedIn_fields (env : Env) (u p : String) (s : BidState) :
    (ensureLoggedIn env u p s).bidTimeouts = s.bidTimeouts ∧
    (ensureLoggedIn env u p s).store = s.store ∧
    (ensureLoggedIn env u p s).memAuctions = s.memAuctions ∧
    (ensureLoggedIn env u p s).nextTimeoutId = s.nextTimeoutId ∧
    (ensureLoggedIn env u p s).launches = s.launches := by
  have h := runSteps_preserve env (loginSteps u p) (logAct s (Action.loginStart u))
  rw [ensureLoggedIn]
  split
  · exact ⟨rfl, rfl, rfl, rfl, rfl⟩
  · split
    · exact ⟨rfl, rfl, rfl, rfl, rfl⟩
    · dsimp only
      split
      · simp_all [logAct]
      · simp_all [logAct]

theorem ensureLoggedIn_browserMap (env : Env) (u p : String) (s : BidState) :
    (ensureLoggedIn env u p s).browserMap = s.browserMap ∨
    (ensureLoggedIn env u p s).browserMap = setLoggedIn s.browserMap u := by
  have h := (runSteps_preserve env (loginSteps u p) (logAct s (Action.loginStart u))).1
  rw [ensureLoggedIn]
  split
  · exact Or.inl rfl
  · split
    · exact Or.inl rfl
    · dsimp only
      split
      · right; simp_all [logAct]
      · left; simp_all [logAct]

theorem ensureLoggedIn_fail (env : Env) (u p : String) (s : BidState) (sess : Session)
    (hs : lookupSession s.browserMap u = some sess) (hnot : sess.isLoggedIn = false)
    (hfail : ∃ i, i < numFallible (loginSteps u p) ∧ env.remote (s.step + i) = false) :
    (ensureLoggedIn env u p s).browserMap = s.browserMap := by
  have hok : (runSteps env (loginSteps u p) (logAct s (Action.loginStart u))).1 = false := by
    cases hb : (runSteps env (loginSteps u p) (logAct s (Action.loginStart u))).1
    · rfl
    · exfalso
      have hall := (runSteps_ok_iff env (loginSteps u p) (logAct s (Action.loginStart u))).1 hb
      rcases hfail with ⟨i, hi, hf⟩
      have hthis := hall i hi
      simp only [logAct] at hthis
      rw [hf] at hthis
      exact Bool.false_ne_true hthis
  rw [ensureLoggedIn, hs]
  dsimp only
  rw [hnot]
  simp only [Bool.false_eq_true, if_false]
  rw [hok]
  simp only [Bool.false_eq_true, if_false]
  simpa [logAct] using (runSteps_preserve env (loginSteps u p) (logAct s (Action.loginStart u))).1

theorem ensureLoggedIn_log (env : Env) (u p : String) (s : BidState) :
    ∃ l, (ensureLoggedIn env u p s).log = s.log ++ l ∧
      ∀ act ∈ l, act = Action.loginStart u ∨ act ∈ loginSteps u p := by
  rw [ensureLoggedIn]
  split
  · exact ⟨[], by simp, by simp⟩
  · split
    · exact ⟨[], by simp, by simp⟩
    · obtain ⟨k, hk, hlog⟩ := runSteps_log env (loginSteps u p) (logAct s (Action.loginStart u))
      dsimp only
      split
      · refine ⟨Action.loginStart u :: (loginSteps u p).take k, ?_, ?_⟩
        · simpa [logAct] using hlog
        · intro act hact
          rcases List.mem_cons.1 hact with h1 | h1
          · exact Or.inl h1
          · exact Or.inr (List.take_subset _ _ h1)
      · refine ⟨Action.loginStart u :: (loginSteps u p).take k, ?_, ?_⟩
        · simpa [logAct] using hlog
        · intro act hact
          rcases List.mem_cons.1 hact with h1 | h1
          · exact Or.inl h1
          · exact Or.inr (List.take_subset _ _ h1)

theorem ensureLoggedIn_attempts (env : Env) (u p : String) (s : BidState) :
    attemptsOf (ensureLoggedIn env u p s).log = attemptsOf s.log := by
  obtain ⟨l, hl, hmem⟩ := ensureLoggedIn_log env u p s
  rw [hl, attemptsOf_append]
  have h0 : attemptsOf l = [] := attemptsOf_eq_nil (by
    intro act hact b v
    rcases hmem act hact with h1 | h1
    · subst h1; simp
    · have hf := loginSteps_fallible u p act h1
      intro he
      subst he
      simp [fallibleAct] at hf)
  simp [h0]

theorem ensureLoggedIn_mem_log (env : Env) (u p : String) (s : BidState) (act : Action)
    (h : act ∈ (ensureLoggedIn env u p s).log) :
    act ∈ s.log ∨ act = Action.loginStart u ∨ act ∈ loginSteps u p := by
  obtain ⟨l, hl, hmem⟩ := ensureLoggedIn_log env u p s
  rw [hl] at h
  rcases List.mem_append.1 h with h1 | h1
  · exact Or.inl h1
  · exact Or.inr (hmem act h1)

/-! ### processAuction and the per-account loop -/

theorem processAuction_preserve (env : Env) (now : Int) (u : String) (st : BidState)
    (a : Auction) :
    (processAuction env now u st a).browserMap = st.browserMap ∧
    (processAuction env now u st a).launches = st.launches ∧
    (processAuction env now u st a).store.credentials = st.store.credentials ∧
    (processAuction env now u st a).store.auctions.map Auction.id
      = st.store.auctions.map Auction.id := by
  rw [processAuction]
  split
  · exact ⟨rfl, rfl, rfl, rfl⟩
  · dsimp only
    split
    · exact ⟨(placeBid_fields env now a u st).1, (placeBid_fields env now a u st).2.2.2,
        placeBid_store_credentials env now a u st, placeBid_store_ids env now a u st⟩
    · exact ⟨rfl, rfl, rfl, rfl⟩

theorem processAuction_timers (env : Env) (now : Int) (u : String) (st : BidState)
    (a : Auction) :
    ∃ nt, (processAuction env now u st a).bidTimeouts = st.bidTimeouts ++ nt ∧
      nt.map timerSpec = armedSpecOne now u a ∧
      ∀ tm ∈ nt, tm.auctionId = tm.auction.id ∧ tm.armedAt = now := by
  rw [processAuction]
  split
  · rename_i heq
    exact ⟨[], by simp, by simp [armedSpecOne, heq], by simp⟩
  · rename_i t heq
    dsimp only
    split
    · rename_i hle
      refine ⟨[], by simpa using (placeBid_fields env now a u st).2.1, ?_, by simp⟩
      simp [armedSpecOne, heq, hle]
    · rename_i hgt
      refine ⟨[⟨st.nextTimeoutId, t - now, now, a.id, u, a⟩], rfl, ?_, ?_⟩
      · simp [armedSpecOne, heq, timerSpec]
        rw [if_neg (show ¬ t ≤ now by omega)]
      · intro tm hm
        simp at hm
        subst hm
        exact ⟨rfl, rfl⟩

theorem processAuction_attempts (env : Env) (now : Int) (u : String) (st : BidState)
    (a : Auction) :
    attemptsOf (processAuction env now u st a).log
      = attemptsOf st.log ++ immSpecOne now u a := by
  rw [processAuction]
  split
  · rename_i heq
    simp [immSpecOne, heq]
  · rename_i t heq
    dsimp only
    split
    · rename_i hle
      rw [placeBid_attempts]
      simp [immSpecOne, heq, hle]
    · rename_i hgt
      simp only [immSpecOne, heq]
      rw [if_neg hgt]
      simp

theorem processAuction_mem_log (env : Env) (now : Int) (u : String) (st : BidState)
    (a : Auction) (act : Action) (h : act ∈ (processAuction env now u st a).log) :
    act ∈ st.log ∨ act = Action.attemptBid a u ∨ act ∈ bidSteps a u ∨
      act = Action.saveOutcome a.id now := by
  rw [processAuction] at h
  split at h
  · exact Or.inl h
  · dsimp only at h
    split at h
    · exact placeBid_mem_log env now a u st act h
    · exact Or.inl h

theorem foldProcess_preserve (env : Env) (now : Int) (u : String) (l : List Auction) :
    ∀ st : BidState,
      ((l.foldl (processAuction env now u) st).browserMap = st.browserMap) ∧
      ((l.foldl (processAuction env now u) st).launches = st.launches) ∧
      ((l.foldl (processAuction env now u) st).store.credentials = st.store.credentials) ∧
      ((l.foldl (processAuction env now u) st).store.auctions.map Auction.id
        = st.store.auctions.map Auction.id) := by
  induction l with
  | nil => intro st; simp
  | cons a rest ih =>
    intro st
    simp only [List.foldl_cons]
    have h1 := processAuction_preserve env now u st a
    have h2 := ih (processAuction env now u st a)
    exact ⟨h2.1.trans h1.1, h2.2.1.trans h1.2.1, h2.2.2.1.trans h1.2.2.1,
      h2.2.2.2.trans h1.2.2.2⟩

theorem foldProcess_timers (env : Env) (now : Int) (u : String) (l : List Auction) :
    ∀ st : BidState,
      ∃ nt, (l.foldl (processAuction env now u) st).bidTimeouts = st.bidTimeouts ++ nt ∧
        nt.map timerSpec = l.flatMap (armedSpecOne now u) ∧
        ∀ tm ∈ nt, tm.auctionId = tm.auction.id ∧ tm.armedAt = now := by
  induction l with
  | nil => intro st; exact ⟨[], by simp, by simp, by simp⟩
  | cons a rest ih =>
    intro st
    simp only [List.foldl_cons]
    obtain ⟨n1, h1, h1s, h1m⟩ := processAuction_timers env now u st a
    obtain ⟨n2, h2, h2s, h2m⟩ := ih (processAuction env now u st a)
    refine ⟨n1 ++ n2, ?_, ?_, ?_⟩
    · rw [h2, h1, List.append_assoc]
    · simp [List.flatMap_cons, h1s, h2s]
    · intro tm hm
      rcases List.mem_append.1 hm with hh | hh
      · exact h1m tm hh
      · exact h2m tm hh

theorem foldProcess_attempts (env : Env) (now : Int) (u : String) (l : List Auction) :
    ∀ st : BidState,
      attemptsOf ((l.foldl (processAuction env now u) st).log)
        = attemptsOf st.log ++ l.flatMap (immSpecOne now u) := by
  induction l with
  | nil => intro st; simp
  | cons a rest ih =>
    intro st
    simp only [List.foldl_cons, List.flatMap_cons]
    rw [ih, processAuction_attempts, List.append_assoc]

theorem foldProcess_mem_log (env : Env) (now : Int) (u : String) (l : List Auction) :
    ∀ (st : BidState) (act : Action), act ∈ (l.foldl (processAuction env now u) st).log →
      act ∈ st.log ∨ ∃ a ∈ l, act = Action.attemptBid a u ∨ act ∈ bidSteps a u ∨
        act = Action.saveOutcome a.id now := by
  induction l with
  | nil => intro st act h; exact Or.inl h
  | cons a rest ih =>
    intro st act h
    simp only [List.foldl_cons] at h
    rcases ih _ act h with h1 | ⟨b, hb, h2⟩
    · rcases processAuction_mem_log env now u st a act h1 with h2 | h2
      · exact Or.inl h2
      · exact Or.inr ⟨a, by simp, h2⟩
    · exact Or.inr ⟨b, by simp [hb], h2⟩

/-! ### handleUserBids lemmas -/

theorem hub_skip (env : Env) (now : Int) (cred : Credential) (ua : List Auction)
    (s : BidState) (hall : ua.filter posBid = []) :
    handleUserBids env now cred ua s = (s, false) := by
  rw [handleUserBids]
  simp [hall]

theorem hub_cases (env : Env) (now : Int) (cred : Credential) (ua : List Auction)
    (s : BidState) :
    ((handleUserBids env now cred ua s).2 = false) ∨
    ((handleUserBids env now cred ua s).2 = true ∧
     (handleUserBids env now cred ua s).1 =
       { s with launches := s.launches + 1,
                log := s.log ++ [Action.launch cred.username] }) := by
  rw [handleUserBids]
  dsimp only
  split
  · exact Or.inl rfl
  · split
    · exact Or.inl rfl
    · split
      · exact Or.inl rfl
      · exact Or.inr ⟨rfl, rfl⟩

theorem hub_no_throw_of_launchOk (env : Env) (now : Int) (cred : Credential)
    (ua : List Auction) (s : BidState) (hL : ∀ n, env.launchOk n = true) :
    (handleUserBids env now cred ua s).2 = false := by
  rw [handleUserBids]
  dsimp only
  split
  · rfl
  · split
    · rfl
    · split
      · rfl
      · rename_i hko
        rw [hL s.launches] at hko
        exact absurd rfl hko

theorem afterLoginFold_lookup_ne (env : Env) (now : Int) (u p : String) (l : List Auction)
    (s1 : BidState) (v : String) (hv : v ≠ u) :
    lookupSession ((l.foldl (processAuction env now u) (ensureLoggedIn env u p s1))).browserMap v
      = lookupSession s1.browserMap v := by
  rw [(foldProcess_preserve env now u l (ensureLoggedIn env u p s1)).1]
  rcases ensureLoggedIn_browserMap env u p s1 with h | h
  · rw [h]
  · rw [h, lookupSession_setLoggedIn_ne u v hv]

theorem hub_lookup_ne (env : Env) (now : Int) (cred : Credential) (ua : List Auction)
    (s : BidState) (v : String) (hv : v ≠ cred.username) :
    lookupSession (handleUserBids env now cred ua s).1.browserMap v
      = lookupSession s.browserMap v := by
  rw [handleUserBids]
  dsimp only
  split
  · rfl
  · split
    · rw [afterLoginFold_lookup_ne env now cred.username cred.password _ _ v hv]
    · split
      · rw [afterLoginFold_lookup_ne env now cred.username cred.password _ _ v hv]
        dsimp only
        rw [lookupSession_append]
        cases hcase : lookupSession s.browserMap v
        · simp only [hcase]
          rw [lookupSession_cons]
          rw [if_neg (fun hh => hv hh.symm)]
          rfl
        · simp [hcase]
      · rfl

theorem hub_main_some (env : Env) (now : Int) (cred : Credential) (ua : List Auction)
    (s : BidState) (sess : Session)
    (hs : lookupSession s.browserMap cred.username = some sess) :
    (∃ nt, (handleUserBids env now cred ua s).1.bidTimeouts = s.bidTimeouts ++ nt ∧
       nt.map timerSpec = armedSpec now cred.username ua ∧
       ∀ tm ∈ nt, tm.auctionId = tm.auction.id ∧ tm.armedAt = now) ∧
    attemptsOf (handleUserBids env now cred ua s).1.log
      = attemptsOf s.log ++ immediateSpec now cred.username ua := by
  rw [handleUserBids]
  dsimp only
  split
  · rename_i hemp
    have hfil : ua.filter posBid = [] := by simpa using hemp
    refine ⟨⟨[], by simp, by simp [armedSpec, hfil], by simp⟩, ?_⟩
    simp [immediateSpec, hfil]
  · rw [hs]
    obtain ⟨nt, hnt, hnts, hntm⟩ := foldProcess_timers env now cred.username
      (ua.filter posBid) (ensureLoggedIn env cred.username cred.password s)
    refine ⟨⟨nt, ?_, hnts, hntm⟩, ?_⟩
    · rw [hnt, (ensureLoggedIn_fields env cred.username cred.password s).1]
    · rw [foldProcess_attempts, ensureLoggedIn_attempts]
      rfl

theorem hub_main_launch (env : Env) (now : Int) (cred : Credential) (ua : List Auction)
    (s : BidState) (hs : lookupSession s.browserMap cred.username = none)
    (hl : env.launchOk s.launches = true) :
    (∃ nt, (handleUserBids env now cred ua s).1.bidTimeouts = s.bidTimeouts ++ nt ∧
       nt.map timerSpec = armedSpec now cred.username ua ∧
       ∀ tm ∈ nt, tm.auctionId = tm.auction.id ∧ tm.armedAt = now) ∧
    attemptsOf (handleUserBids env now cred ua s).1.log
      = attemptsOf s.log ++ immediateSpec now cred.username ua := by
  rw [handleUserBids]
  dsimp only
  split
  · rename_i hemp
    have hfil : ua.filter posBid = [] := by simpa using hemp
    refine ⟨⟨[], by simp, by simp [armedSpec, hfil], by simp⟩, ?_⟩
    simp [immediateSpec, hfil]
  · rw [hs]
    dsimp only
    obtain ⟨nt, hnt, hnts, hntm⟩ := foldProcess_timers env now cred.username
      (ua.filter posBid)
      (ensureLoggedIn env cred.username cred.password
        { browserMap := s.browserMap ++ [(cred.username, ⟨false⟩)],
          bidTimeouts := s.bidTimeouts, store := s.store, memAuctions := s.memAuctions,
          nextTimeoutId := s.nextTimeoutId, step := s.step, launches := s.launches + 1,
          log := s.log ++ [Action.launch cred.username] })
    refine ⟨⟨nt, ?_, hnts, hntm⟩, ?_⟩
    · rw [hnt, (ensureLoggedIn_fields env cred.username cred.password _).1]
    · rw [foldProcess_attempts, ensureLoggedIn_attempts]
      dsimp only
      rw [attemptsOf_append]
      rw [show attemptsOf [Action.launch cred.username] = [] from rfl]
      simp [immediateSpec]

theorem armedSpec_mem (now : Int) (u : String) (l : List Auction) (x : Auction × String × Int)
    (h : x ∈ armedSpec now u l) :
    x.1 ∈ l.filter posBid ∧ x.2.1 = u ∧
      ∃ t, x.1.timeToBid = some t ∧ x.2.2 = t - now ∧ 0 < t - now := by
  rcases List.mem_flatMap.1 h with ⟨a, ha, hx⟩
  rw [armedSpecOne] at hx
  split at hx
  · cases hx
  · rename_i t ht
    split at hx
    · cases hx
    · rename_i hgt
      have hxx := List.mem_singleton.1 hx
      subst hxx
      exact ⟨ha, rfl, t, ht, rfl, by omega⟩

theorem immediateSpec_mem (now : Int) (u : String) (l : List Auction) (x : Auction × String)
    (h : x ∈ immediateSpec now u l) :
    x.1 ∈ l.filter posBid ∧ x.2 = u ∧
      ∃ t, x.1.timeToBid = some t ∧ t - now ≤ 0 := by
  rcases List.mem_flatMap.1 h with ⟨a, ha, hx⟩
  rw [immSpecOne] at hx
  split at hx
  · cases hx
  · rename_i t ht
    split at hx
    · rename_i hle
      have hxx := List.mem_singleton.1 hx
      subst hxx
      exact ⟨ha, rfl, t, ht, hle⟩
    · cases hx

theorem armedSpec_of_mem (now : Int) (u : String) (l : List Auction) (a : Auction)
    (ha : a ∈ l.filter posBid) (t : Int) (ht : a.timeToBid = some t) (hgt : 0 < t - now) :
    (a, u, t - now) ∈ armedSpec now u l :=
  List.mem_flatMap.2 ⟨a, ha, by
    simp only [armedSpecOne, ht]
    rw [if_neg (by omega : ¬ t - now ≤ 0)]
    simp⟩

theorem immediateSpec_of_mem (now : Int) (u : String) (l : List Auction) (a : Auction)
    (ha : a ∈ l.filter posBid) (t : Int) (ht : a.timeToBid = some t) (hle : t - now ≤ 0) :
    (a, u) ∈ immediateSpec now u l :=
  List.mem_flatMap.2 ⟨a, ha, by
    simp only [immSpecOne, ht]
    rw [if_pos hle]
    simp⟩

theorem timers_from_spec (now : Int) (u : String) (ua : List Auction) (nt : List Timer)
    (hnts : nt.map timerSpec = armedSpec now u ua)
    (hm : ∀ tm ∈ nt, tm.auctionId = tm.auction.id ∧ tm.armedAt = now) :
    ∀ tm ∈ nt, posBid tm.auction = true ∧ tm.auction ∈ ua ∧ tm.username = u ∧
      tm.auctionId = tm.auction.id ∧
      ∃ t, tm.auction.timeToBid = some t ∧ tm.delay = t - now ∧ 0 < tm.delay := by
  intro tm htm
  have hmem : timerSpec tm ∈ armedSpec now u ua := by
    rw [← hnts]
    exact List.mem_map_of_mem _ htm
  obtain ⟨h1, h2, t, ht, hd, hpos⟩ := armedSpec_mem now u ua (timerSpec tm) hmem
  refine ⟨(List.mem_filter.1 h1).2, (List.mem_filter.1 h1).1, h2,
    (hm tm htm).1, t, ht, hd, ?_⟩
  have hd2 : tm.delay = t - now := hd
  omega

theorem hub_timers_all (env : Env) (now : Int) (cred : Credential) (ua : List Auction)
    (s : BidState) :
    ∃ nt, (handleUserBids env now cred ua s).1.bidTimeouts = s.bidTimeouts ++ nt ∧
      ∀ tm ∈ nt, posBid tm.auction = true ∧ tm.auction ∈ ua ∧ tm.username = cred.username ∧
        tm.auctionId = tm.auction.id ∧
        ∃ t, tm.auction.timeToBid = some t ∧ tm.delay = t - now ∧ 0 < tm.delay := by
  rw [handleUserBids]
  dsimp only
  split
  · exact ⟨[], by simp, by simp⟩
  · split
    · obtain ⟨nt, hnt, hnts, hm⟩ := foldProcess_timers env now cred.username (ua.filter posBid)
        (ensureLoggedIn env cred.username cred.password s)
      refine ⟨nt, ?_, timers_from_spec now cred.username ua nt hnts hm⟩
      rw [hnt, (ensureLoggedIn_fields env cred.username cred.password s).1]
    · split
      · obtain ⟨nt, hnt, hnts, hm⟩ := foldProcess_timers env now cred.username (ua.filter posBid)
          (ensureLoggedIn env cred.username cred.password
            { browserMap := s.browserMap ++ [(cred.username, ⟨false⟩)],
              bidTimeouts := s.bidTimeouts, store := s.store, memAuctions := s.memAuctions,
              nextTimeoutId := s.nextTimeoutId, step := s.step, launches := s.launches + 1,
              log := s.log ++ [Action.launch cred.username] })
        refine ⟨nt, ?_, timers_from_spec now cred.username ua nt hnts hm⟩
        rw [hnt, (ensureLoggedIn_fields env cred.username cred.password _).1]
      · exact ⟨[], by simp, by simp⟩

theorem hub_store (env : Env) (now : Int) (cred : Credential) (ua : List Auction)
    (s : BidState) :
    (handleUserBids env now cred ua s).1.store.credentials = s.store.credentials ∧
    (handleUserBids env now cred ua s).1.store.auctions.map Auction.id
      = s.store.auctions.map Auction.id := by
  rw [handleUserBids]
  dsimp only
  split
  · exact ⟨rfl, rfl⟩
  · split
    · have hf := foldProcess_preserve env now cred.username (ua.filter posBid)
        (ensureLoggedIn env cred.username cred.password s)
      have he := (ensureLoggedIn_fields env cred.username cred.password s).2.1
      exact ⟨hf.2.2.1.trans (congrArg Store.credentials he),
             hf.2.2.2.trans (congrArg (fun st => st.auctions.map Auction.id) he)⟩
    · split
      · have hf := foldProcess_preserve env now cred.username (ua.filter posBid)
          (ensureLoggedIn env cred.username cred.password
            { browserMap := s.browserMap ++ [(cred.username, ⟨false⟩)],
              bidTimeouts := s.bidTimeouts, store := s.store, memAuctions := s.memAuctions,
              nextTimeoutId := s.nextTimeoutId, step := s.step, launches := s.launches + 1,
              log := s.log ++ [Action.launch cred.username] })
        have he := (ensureLoggedIn_fields env cred.username cred.password
          { browserMap := s.browserMap ++ [(cred.username, ⟨false⟩)],
            bidTimeouts := s.bidTimeouts, store := s.store, memAuctions := s.memAuctions,
            nextTimeoutId := s.nextTimeoutId, step := s.step, launches := s.launches + 1,
            log := s.log ++ [Action.launch cred.username] }).2.1
        exact ⟨hf.2.2.1.trans (congrArg Store.credentials he),
               hf.2.2.2.trans (congrArg (fun st => st.auctions.map Auction.id) he)⟩
      · exact ⟨rfl, rfl⟩

theorem hub_mem_log (env : Env) (now : Int) (cred : Credential) (ua : List Auction)
    (s : BidState) (act : Action) (h : act ∈ (handleUserBids env now cred ua s).1.log) :
    act ∈ s.log ∨ (ua.filter posBid ≠ [] ∧
      (act = Action.launch cred.username ∨ act = Action.loginStart cred.username ∨
       act ∈ loginSteps cred.username cred.password ∨
       ∃ a ∈ ua.filter posBid, act = Action.attemptBid a cred.username ∨
         act ∈ bidSteps a cred.username ∨ act = Action.saveOutcome a.id now)) := by
  rw [handleUserBids] at h
  dsimp only at h
  split at h
  · exact Or.inl h
  · rename_i hemp
    have hne : ua.filter posBid ≠ [] := by
      intro hh
      exact hemp (by simp [hh])
    split at h
    · rcases foldProcess_mem_log env now cred.username (ua.filter posBid) _ act h
        with h1 | ⟨a, ha, h2⟩
      · rcases ensureLoggedIn_mem_log env cred.username cred.password s act h1
          with h2 | h2 | h2
        · exact Or.inl h2
        · exact Or.inr ⟨hne, Or.inr (Or.inl h2)⟩
        · exact Or.inr ⟨hne, Or.inr (Or.inr (Or.inl h2))⟩
      · exact Or.inr ⟨hne, Or.inr (Or.inr (Or.inr ⟨a, ha, h2⟩))⟩
    · split at h
      · rcases foldProcess_mem_log env now cred.username (ua.filter posBid) _ act h
          with h1 | ⟨a, ha, h2⟩
        · rcases ensureLoggedIn_mem_log env cred.username cred.password _ act h1
            with h2 | h2 | h2
        -- membership in the post-launch state log
          · dsimp only at h2
            rcases List.mem_append.1 h2 with h3 | h3
            · exact Or.inl h3
            · exact Or.inr ⟨hne, Or.inl (List.mem_singleton.1 h3)⟩
          · exact Or.inr ⟨hne, Or.inr (Or.inl h2)⟩
          · exact Or.inr ⟨hne, Or.inr (Or.inr (Or.inl h2))⟩
        · exact Or.inr ⟨hne, Or.inr (Or.inr (Or.inr ⟨a, ha, h2⟩))⟩
      · dsimp only at h
        rcases List.mem_append.1 h with h3 | h3
        · exact Or.inl h3
        · exact Or.inr ⟨hne, Or.inl (List.mem_singleton.1 h3)⟩

/-! ### The schedule-all pass -/

theorem schedStep_timers (env : Env) (now : Int) (auctions : List Auction)
    (acc : BidState × Bool) (c : Credential) (hL : ∀ n, env.launchOk n = true) :
    ∃ n1, (schedStep env now auctions acc c).1.bidTimeouts = acc.1.bidTimeouts ++ n1 ∧
      n1.map timerSpec = armedSpec now c.username (userAuctionsFor auctions c.username) ∧
      ∀ tm ∈ n1, tm.auctionId = tm.auction.id ∧ tm.armedAt = now := by
  rw [schedStep]
  dsimp only
  split
  · rename_i hemp
    have hnil : userAuctionsFor auctions c.username = [] := by simpa using hemp
    exact ⟨[], by simp, by simp [hnil, armedSpec], by simp⟩
  · cases hs : lookupSession acc.1.browserMap c.username with
    | some sess =>
      obtain ⟨⟨nt, hnt, hnts, hm⟩, _⟩ := hub_main_some env now c _ acc.1 sess hs
      exact ⟨nt, hnt, hnts, hm⟩
    | none =>
      obtain ⟨⟨nt, hnt, hnts, hm⟩, _⟩ := hub_main_launch env now c _ acc.1 hs (hL acc.1.launches)
      exact ⟨nt, hnt, hnts, hm⟩

theorem schedStep_attempts (env : Env) (now : Int) (auctions : List Auction)
    (acc : BidState × Bool) (c : Credential) (hL : ∀ n, env.launchOk n = true) :
    attemptsOf (schedStep env now auctions acc c).1.log
      = attemptsOf acc.1.log
          ++ immediateSpec now c.username (userAuctionsFor auctions c.username) := by
  rw [schedStep]
  dsimp only
  split
  · rename_i hemp
    have hnil : userAuctionsFor auctions c.username = [] := by simpa using hemp
    simp [hnil, immediateSpec]
  · cases hs : lookupSession acc.1.browserMap c.username with
    | some sess => exact (hub_main_some env now c _ acc.1 sess hs).2
    | none => exact (hub_main_launch env now c _ acc.1 hs (hL acc.1.launches)).2

theorem schedStep_store (env : Env) (now : Int) (auctions : List Auction)
    (acc : BidState × Bool) (c : Credential) :
    (schedStep env now auctions acc c).1.store.credentials = acc.1.store.credentials ∧
    (schedStep env now auctions acc c).1.store.auctions.map Auction.id
      = acc.1.store.auctions.map Auction.id := by
  rw [schedStep]
  dsimp only
  split
  · exact ⟨rfl, rfl⟩
  · exact hub_store env now c _ acc.1

theorem schedStep_timers_all (env : Env) (now : Int) (auctions : List Auction)
    (acc : BidState × Bool) (c : Credential) :
    ∃ n1, (schedStep env now auctions acc c).1.bidTimeouts = acc.1.bidTimeouts ++ n1 ∧
      ∀ tm ∈ n1, posBid tm.auction = true ∧
        tm.auction ∈ userAuctionsFor auctions c.username ∧ tm.username = c.username ∧
        tm.auctionId = tm.auction.id ∧
        ∃ t, tm.auction.timeToBid = some t ∧ tm.delay = t - now ∧ 0 < tm.delay := by
  rw [schedStep]
  dsimp only
  split
  · exact ⟨[], by simp, by simp⟩
  · exact hub_timers_all env now c _ acc.1

theorem foldSched_no_throw (env : Env) (now : Int) (auctions : List Auction)
    (creds : List Credential) (hL : ∀ n, env.launchOk n = true) :
    ∀ acc : BidState × Bool,
      (creds.foldl (schedStep env now auctions) acc).2 = acc.2 := by
  induction creds with
  | nil => intro acc; rfl
  | cons c rest ih =>
    intro acc
    simp only [List.foldl_cons]
    rw [ih (schedStep env now auctions acc c)]
    rw [schedStep]
    dsimp only
    split
    · rfl
    · rw [hub_no_throw_of_launchOk env now c _ acc.1 hL, Bool.or_false]

theorem foldSched_timers (env : Env) (now : Int) (auctions : List Auction)
    (creds : List Credential) (hL : ∀ n, env.launchOk n = true) :
    ∀ acc : BidState × Bool,
      ∃ nt, (creds.foldl (schedStep env now auctions) acc).1.bidTimeouts
          = acc.1.bidTimeouts ++ nt ∧
        nt.map timerSpec = creds.flatMap
          (fun cred => armedSpec now cred.username (userAuctionsFor auctions cred.username)) ∧
        ∀ tm ∈ nt, tm.auctionId = tm.auction.id ∧ tm.armedAt = now := by
  induction creds with
  | nil => intro acc; exact ⟨[], by simp, by simp, by simp⟩
  | cons c rest ih =>
    intro acc
    simp only [List.foldl_cons, List.flatMap_cons]
    obtain ⟨n1, h1, h1s, h1m⟩ := schedStep_timers env now auctions acc c hL
    obtain ⟨n2, h2, h2s, h2m⟩ := ih (schedStep env now auctions acc c)
    refine ⟨n1 ++ n2, ?_, ?_, ?_⟩
    · rw [h2, h1, List.append_assoc]
    · simp [h1s, h2s]
    · intro tm hm
      rcases List.mem_append.1 hm with hh | hh
      · exact h1m tm hh
      · exact h2m tm hh

theorem foldSched_attempts (env : Env) (now : Int) (auctions : List Auction)
    (creds : List Credential) (hL : ∀ n, env.launchOk n = true) :
    ∀ acc : BidState × Bool,
      attemptsOf (creds.foldl (schedStep env now auctions) acc).1.log
        = attemptsOf acc.1.log ++ creds.flatMap
            (fun cred => immediateSpec now cred.username (userAuctionsFor auctions cred.username)) := by
  induction creds with
  | nil => intro acc; simp
  | cons c rest ih =>
    intro acc
    simp only [List.foldl_cons, List.flatMap_cons]
    rw [ih (schedStep env now auctions acc c),
      schedStep_attempts env now auctions acc c hL, List.append_assoc]

theorem foldSched_store (env : Env) (now : Int) (auctions : List Auction)
    (creds : List Credential) :
    ∀ acc : BidState × Bool,
      (creds.foldl (schedStep env now auctions) acc).1.store.credentials
        = acc.1.store.credentials ∧
      (creds.foldl (schedStep env now auctions) acc).1.store.auctions.map Auction.id
        = acc.1.store.auctions.map Auction.id := by
  induction creds with
  | nil => intro acc; exact ⟨rfl, rfl⟩
  | cons c rest ih =>
    intro acc
    simp only [List.foldl_cons]
    have h1 := schedStep_store env now auctions acc c
    have h2 := ih (schedStep env now auctions acc c)
    exact ⟨h2.1.trans h1.1, h2.2.trans h1.2⟩

theorem foldSched_timers_all (env : Env) (now : Int) (auctions : List Auction)
    (creds : List Credential) :
    ∀ acc : BidState × Bool,
      ∃ nt, (creds.foldl (schedStep env now auctions) acc).1.bidTimeouts
          = acc.1.bidTimeouts ++ nt ∧
        ∀ tm ∈ nt, posBid tm.auction = true ∧
          (∃ c ∈ creds, tm.auction ∈ userAuctionsFor auctions c.username ∧
            tm.username = c.username) ∧
          tm.auctionId = tm.auction.id ∧
          ∃ t, tm.auction.timeToBid = some t ∧ tm.delay = t - now ∧ 0 < tm.delay := by
  induction creds with
  | nil => intro acc; exact ⟨[], by simp, by simp⟩
  | cons c rest ih =>
    intro acc
    simp only [List.foldl_cons]
    obtain ⟨n1, h1, h1m⟩ := schedStep_timers_all env now auctions acc c
    obtain ⟨n2, h2, h2m⟩ := ih (schedStep env now auctions acc c)
    refine ⟨n1 ++ n2, by rw [h2, h1, List.append_assoc], ?_⟩
    intro tm hm
    rcases List.mem_append.1 hm with hh | hh
    · obtain ⟨hp, hmem, hu, hid, ht⟩ := h1m tm hh
      exact ⟨hp, ⟨c, by simp, hmem, hu⟩, hid, ht⟩
    · obtain ⟨hp, ⟨c2, hc2, hmem, hu⟩, hid, ht⟩ := h2m tm hh
      exact ⟨hp, ⟨c2, by simp [hc2], hmem, hu⟩, hid, ht⟩

theorem fetch_state (env : Env) (now : Int) (s : BidState) :
    (fetchAuctionsData env now s).2 =
      (if (s.store.credentials.isEmpty || s.store.auctions.isEmpty) = true
       then { s with bidTimeouts := [], memAuctions := s.store.auctions }
       else (s.store.credentials.foldl (schedStep env now s.store.auctions)
              ({ s with bidTimeouts := [], memAuctions := s.store.auctions }, false)).1) := by
  rw [fetchAuctionsData]
  dsimp only
  split
  · rfl
  · split
    · rfl
    · rfl

theorem fetch_result (env : Env) (now : Int) (s : BidState)
    (hL : ∀ n, env.launchOk n = true) :
    (fetchAuctionsData env now s).1
      = Except.ok (fetchAuctionsData env now s).2.memAuctions := by
  rw [fetch_state, fetchAuctionsData]
  dsimp only
  split
  · rfl
  · have hthrow := foldSched_no_throw env now s.store.auctions s.store.credentials hL
      ({ s with bidTimeouts := [], memAuctions := s.store.auctions }, false)
    split
    · rename_i hres
      rw [hthrow] at hres
      exact absurd hres (by simp)
    · rfl

theorem fetch_timers_spec (env : Env) (now : Int) (s : BidState)
    (hL : ∀ n, env.launchOk n = true) :
    (fetchAuctionsData env now s).2.bidTimeouts.map timerSpec = schedSpec now s.store ∧
    ∀ tm ∈ (fetchAuctionsData env now s).2.bidTimeouts,
      tm.auctionId = tm.auction.id ∧ tm.armedAt = now := by
  rw [fetch_state]
  split
  · rename_i hemp
    constructor
    · rw [schedSpec, if_pos hemp]
      rfl
    · intro tm htm
      simp at htm
  · rename_i hemp
    obtain ⟨nt, hnt, hnts, hm⟩ := foldSched_timers env now s.store.auctions
      s.store.credentials hL ({ s with bidTimeouts := [], memAuctions := s.store.auctions }, false)
    have hnt2 : (s.store.credentials.foldl (schedStep env now s.store.auctions)
        ({ s with bidTimeouts := [], memAuctions := s.store.auctions }, false)).1.bidTimeouts
        = nt := by simpa using hnt
    constructor
    · rw [hnt2, hnts, schedSpec, if_neg hemp]
    · intro tm htm
      rw [hnt2] at htm
      exact hm tm htm

theorem fetch_attempts (env : Env) (now : Int) (s : BidState)
    (hL : ∀ n, env.launchOk n = true) :
    attemptsOf (fetchAuctionsData env now s).2.log
      = attemptsOf s.log ++ schedAttempts now s.store := by
  rw [fetch_state]
  split
  · rename_i hemp
    rw [schedAttempts, if_pos hemp]
    simp
  · rename_i hemp
    rw [foldSched_attempts env now s.store.auctions s.store.credentials hL
      ({ s with bidTimeouts := [], memAuctions := s.store.auctions }, false)]
    rw [schedAttempts, if_neg hemp]

theorem fetch_store (env : Env) (now : Int) (s : BidState) :
    (fetchAuctionsData env now s).2.store.credentials = s.store.credentials ∧
    (fetchAuctionsData env now s).2.store.auctions.map Auction.id
      = s.store.auctions.map Auction.id := by
  rw [fetch_state]
  split
  · exact ⟨rfl, rfl⟩
  · exact foldSched_store env now s.store.auctions s.store.credentials
      ({ s with bidTimeouts := [], memAuctions := s.store.auctions }, false)

theorem fetch_timers_all (env : Env) (now : Int) (s : BidState) :
    ∀ tm ∈ (fetchAuctionsData env now s).2.bidTimeouts,
      posBid tm.auction = true ∧
      (∃ c ∈ s.store.credentials, tm.auction ∈ userAuctionsFor s.store.auctions c.username ∧
        tm.username = c.username) ∧
      tm.auctionId = tm.auction.id ∧
      ∃ t, tm.auction.timeToBid = some t ∧ tm.delay = t - now ∧ 0 < tm.delay := by
  rw [fetch_state]
  split
  · intro tm htm
    simp at htm
  · obtain ⟨nt, hnt, hm⟩ := foldSched_timers_all env now s.store.auctions
      s.store.credentials ({ s with bidTimeouts := [], memAuctions := s.store.auctions }, false)
    have hnt2 : (s.store.credentials.foldl (schedStep env now s.store.auctions)
        ({ s with bidTimeouts := [], memAuctions := s.store.auctions }, false)).1.bidTimeouts
        = nt := by simpa using hnt
    intro tm htm
    rw [hnt2] at htm
    exact hm tm htm

theorem mem_userAuctionsFor (auctions : List Auction) (u : String) (a : Auction) :
    a ∈ userAuctionsFor auctions u ↔ a ∈ auctions ∧ a.account ≠ "" ∧ a.account = u := by
  simp [userAuctionsFor, List.mem_filter]

theorem foldSched_lookup (env : Env) (now : Int) (auctions : List Auction) (u : String)
    (hu : (userAuctionsFor auctions u).filter posBid = []) (creds : List Credential) :
    ∀ acc : BidState × Bool,
      lookupSession (creds.foldl (schedStep env now auctions) acc).1.browserMap u
        = lookupSession acc.1.browserMap u := by
  induction creds with
  | nil => intro acc; rfl
  | cons c rest ih =>
    intro acc
    simp only [List.foldl_cons]
    rw [ih (schedStep env now auctions acc c)]
    rw [schedStep]
    dsimp only
    split
    · rfl
    · by_cases hc : u = c.username
      · rw [hub_skip env now c _ acc.1 (by rw [← hc]; exact hu)]
      · exact hub_lookup_ne env now c _ acc.1 u hc

theorem fetch_lookup (env : Env) (now : Int) (s : BidState) (u : String)
    (hu : ∀ a ∈ s.store.auctions, a.account = u → posBid a = false) :
    lookupSession (fetchAuctionsData env now s).2.browserMap u
      = lookupSession s.browserMap u := by
  have hfil : (userAuctionsFor s.store.auctions u).filter posBid = [] := by
    rw [List.filter_eq_nil_iff]
    intro a ha
    have hm := (mem_userAuctionsFor s.store.auctions u a).1 ha
    rw [hu a hm.1 hm.2.2]
    simp
  rw [fetch_state]
  split
  · rfl
  · exact foldSched_lookup env now s.store.auctions u hfil s.store.credentials _

theorem schedStep_mem_log (env : Env) (now : Int) (auctions : List Auction)
    (acc : BidState × Bool) (c : Credential) (act : Action)
    (h : act ∈ (schedStep env now auctions acc c).1.log) :
    act ∈ acc.1.log ∨ ((userAuctionsFor auctions c.username).filter posBid ≠ [] ∧
      (act = Action.launch c.username ∨ act = Action.loginStart c.username ∨
       act ∈ loginSteps c.username c.password ∨
       ∃ a ∈ (userAuctionsFor auctions c.username).filter posBid,
         act = Action.attemptBid a c.username ∨ act ∈ bidSteps a c.username ∨
         act = Action.saveOutcome a.id now)) := by
  rw [schedStep] at h
  dsimp only at h
  split at h
  · exact Or.inl h
  · exact hub_mem_log env now c _ acc.1 act h

theorem foldSched_mem_log (env : Env) (now : Int) (auctions : List Auction)
    (creds : List Credential) :
    ∀ (acc : BidState × Bool) (act : Action),
      act ∈ (creds.foldl (schedStep env now auctions) acc).1.log →
      act ∈ acc.1.log ∨ ∃ c ∈ creds,
        (userAuctionsFor auctions c.username).filter posBid ≠ [] ∧
        (act = Action.launch c.username ∨ act = Action.loginStart c.username ∨
         act ∈ loginSteps c.username c.password ∨
         ∃ a ∈ (userAuctionsFor auctions c.username).filter posBid,
           act = Action.attemptBid a c.username ∨ act ∈ bidSteps a c.username ∨
           act = Action.saveOutcome a.id now) := by
  induction creds with
  | nil => intro acc act h; exact Or.inl h
  | cons c rest ih =>
    intro acc act h
    simp only [List.foldl_cons] at h
    rcases ih (schedStep env now auctions acc c) act h with h1 | ⟨c2, hc2, h2⟩
    · rcases schedStep_mem_log env now auctions acc c act h1 with h2 | h2
      · exact Or.inl h2
      · exact Or.inr ⟨c, by simp, h2⟩
    · exact Or.inr ⟨c2, by simp [hc2], h2⟩

theorem fetch_mem_log (env : Env) (now : Int) (s : BidState) (act : Action)
    (h : act ∈ (fetchAuctionsData env now s).2.log) :
    act ∈ s.log ∨ ∃ c ∈ s.store.credentials,
      (userAuctionsFor s.store.auctions c.username).filter posBid ≠ [] ∧
      (act = Action.launch c.username ∨ act = Action.loginStart c.username ∨
       act ∈ loginSteps c.username c.password ∨
       ∃ a ∈ (userAuctionsFor s.store.auctions c.username).filter posBid,
         act = Action.attemptBid a c.username ∨ act ∈ bidSteps a c.username ∨
         act = Action.saveOutcome a.id now) := by
  rw [fetch_state] at h
  split at h
  · exact Or.inl h
  · exact foldSched_mem_log env now s.store.auctions s.store.credentials _ act h

theorem armedSpec_ids_sublist (now : Int) (u : String) : ∀ l : List Auction,
    ((armedSpec now u l).map (fun x => x.1.id)).Sublist (l.map Auction.id) := by
  intro l
  induction l with
  | nil => simp [armedSpec]
  | cons a rest ih =>
    by_cases hp : posBid a = true
    · rw [armedSpec, List.filter_cons_of_pos hp, List.flatMap_cons]
      rcases ht : a.timeToBid with _ | t
      · simp only [armedSpecOne, ht, List.nil_append, List.map_cons]
        exact (ih).cons a.id
      · by_cases hle : t - now ≤ 0
        · simp only [armedSpecOne, ht]
          rw [if_pos hle]
          simp only [List.nil_append, List.map_cons]
          exact (ih).cons a.id
        · simp only [armedSpecOne, ht]
          rw [if_neg hle]
          simp only [List.singleton_append, List.map_cons]
          exact List.Sublist.cons₂ a.id ih
    · rw [armedSpec, List.filter_cons_of_neg (by simpa using hp)]
      exact (ih).cons a.id

theorem userAuctionsFor_sublist (auctions : List Auction) (u : String) :
    ((userAuctionsFor auctions u).map Auction.id).Sublist (auctions.map Auction.id) :=
  (List.filter_sublist auctions).map Auction.id

theorem schedSpec_ids_nodup (now : Int) (store : Store)
    (hU : (store.credentials.map Credential.username).Nodup)
    (hI : (store.auctions.map Auction.id).Nodup) :
    ((schedSpec now store).map (fun x => x.1.id)).Nodup := by
  rw [schedSpec]
  split
  · simp
  · rw [List.map_flatMap, List.nodup_flatMap]
    constructor
    · intro c hc
      exact ((armedSpec_ids_sublist now c.username _).trans
        (userAuctionsFor_sublist store.auctions c.username)).nodup hI
    · have hp : store.credentials.Pairwise (fun c1 c2 => c1.username ≠ c2.username) :=
        List.pairwise_map.1 hU
      refine hp.imp ?_
      intro c1 c2 hne
      simp only [Function.onFun]
      intro idv h1 h2
      rcases List.mem_map.1 h1 with ⟨x1, hx1, hi1⟩
      rcases List.mem_map.1 h2 with ⟨x2, hx2, hi2⟩
      obtain ⟨hm1, _, _⟩ := armedSpec_mem now c1.username _ x1 hx1
      obtain ⟨hm2, _, _⟩ := armedSpec_mem now c2.username _ x2 hx2
      have hb1 := (List.mem_filter.1 hm1).1
      have hb2 := (List.mem_filter.1 hm2).1
      have hu1 := (mem_userAuctionsFor store.auctions c1.username x1.1).1 hb1
      have hu2 := (mem_userAuctionsFor store.auctions c2.username x2.1).1 hb2
      have hid : x1.1.id = x2.1.id := by rw [hi1, hi2]
      have heq : x1.1 = x2.1 :=
        List.inj_on_of_nodup_map hI hu1.1 hu2.1 hid
      exact hne (by rw [← hu1.2.2, heq, hu2.2.2])

/-! ### Timer firing -/

theorem foldFire_attempts (env : Env) (t : Int) (due : List Timer) : ∀ st : BidState,
    attemptsOf ((due.foldl (fun st tm => placeBid env t tm.auction tm.username st) st).log)
      = attemptsOf st.log ++ due.map (fun tm => (tm.auction, tm.username)) := by
  induction due with
  | nil => intro st; simp
  | cons tm rest ih =>
    intro st
    simp only [List.foldl_cons, List.map_cons]
    rw [ih, placeBid_attempts]
    simp

theorem fireDue_attempts (env : Env) (t : Int) (s : BidState) :
    attemptsOf (fireDue env t s).log = attemptsOf s.log ++
      (sortByFire (s.bidTimeouts.filter (fun tm => decide (fireAt tm ≤ t)))).map
        (fun tm => (tm.auction, tm.username)) := by
  rw [fireDue]
  exact foldFire_attempts env t _ _

theorem fireDue_of_no_timers (env : Env) (t : Int) (s : BidState)
    (h : s.bidTimeouts = []) : fireDue env t s = s := by
  rw [fireDue, h]
  simp only [List.filter_nil, sortByFire, List.foldr_nil, List.foldl_nil]
  cases s
  simp_all

theorem hub_main (env : Env) (now : Int) (cred : Credential) (ua : List Auction)
    (s : BidState) (hL : ∀ n, env.launchOk n = true) :
    (∃ nt, (handleUserBids env now cred ua s).1.bidTimeouts = s.bidTimeouts ++ nt ∧
       nt.map timerSpec = armedSpec now cred.username ua ∧
       ∀ tm ∈ nt, tm.auctionId = tm.auction.id ∧ tm.armedAt = now) ∧
    attemptsOf (handleUserBids env now cred ua s).1.log
      = attemptsOf s.log ++ immediateSpec now cred.username ua := by
  cases hs : lookupSession s.browserMap cred.username with
  | some sess => exact hub_main_some env now cred ua s sess hs
  | none => exact hub_main_launch env now cred ua s hs (hL s.launches)

theorem fetch_launch_mem (env : Env) (now : Int) (s : BidState) (u : String)
    (h : Action.launch u ∈ (fetchAuctionsData env now s).2.log) :
    Action.launch u ∈ s.log ∨ ∃ c ∈ s.store.credentials, c.username = u ∧
      (userAuctionsFor s.store.auctions c.username).filter posBid ≠ [] := by
  rcases fetch_mem_log env now s _ h with h1 | ⟨c, hc, hne, hd⟩
  · exact Or.inl h1
  · right
    refine ⟨c, hc, ?_, hne⟩
    rcases hd with h2 | h2 | h2 | ⟨a, ha, h2 | h2 | h2⟩
    · injection h2 with h3
      exact h3.symm
    · exact absurd h2 (by simp)
    · have hf := loginSteps_fallible c.username c.password _ h2
      simp [fallibleAct] at hf
    · exact absurd h2 (by simp)
    · rcases bidSteps_shape a c.username _ h2 with hf | hset
      · simp [fallibleAct] at hf
      · exact absurd hset (by simp)
    · exact absurd h2 (by simp)

theorem fetch_loginStart_mem (env : Env) (now : Int) (s : BidState) (u : String)
    (h : Action.loginStart u ∈ (fetchAuctionsData env now s).2.log) :
    Action.loginStart u ∈ s.log ∨ ∃ c ∈ s.store.credentials, c.username = u ∧
      (userAuctionsFor s.store.auctions c.username).filter posBid ≠ [] := by
  rcases fetch_mem_log env now s _ h with h1 | ⟨c, hc, hne, hd⟩
  · exact Or.inl h1
  · right
    refine ⟨c, hc, ?_, hne⟩
    rcases hd with h2 | h2 | h2 | ⟨a, ha, h2 | h2 | h2⟩
    · exact absurd h2 (by simp)
    · injection h2 with h3
      exact h3.symm
    · have hf := loginSteps_fallible c.username c.password _ h2
      simp [fallibleAct] at hf
    · exact absurd h2 (by simp)
    · rcases bidSteps_shape a c.username _ h2 with hf | hset
      · simp [fallibleAct] at hf
      · exact absurd hset (by simp)
    · exact absurd h2 (by simp)

theorem mem_insertByFire (tm y : Timer) : ∀ l : List Timer,
    (y ∈ insertByFire tm l ↔ y = tm ∨ y ∈ l) := by
  intro l
  induction l with
  | nil => simp [insertByFire]
  | cons x xs ih =>
    rw [insertByFire]
    split
    · simp [List.mem_cons]
    · simp only [List.mem_cons, ih]
      constructor
      · intro hh
        rcases hh with hh | hh | hh
        · exact Or.inr (Or.inl hh)
        · exact Or.inl hh
        · exact Or.inr (Or.inr hh)
      · intro hh
        rcases hh with hh | hh | hh
        · exact Or.inr (Or.inl hh)
        · exact Or.inl hh
        · exact Or.inr (Or.inr hh)

theorem insertByFire_pairwise (tm : Timer) : ∀ l : List Timer,
    l.Pairwise (fun x y => fireAt x ≤ fireAt y) →
    (insertByFire tm l).Pairwise (fun x y => fireAt x ≤ fireAt y) := by
  intro l
  induction l with
  | nil => intro _; simp [insertByFire]
  | cons x xs ih =>
    intro h
    have hx := List.pairwise_cons.1 h
    rw [insertByFire]
    split
    · rename_i hle
      refine List.pairwise_cons.2 ⟨?_, h⟩
      intro y hy
      rcases List.mem_cons.1 hy with hh | hh
      · rw [hh]; exact hle
      · exact le_trans hle (hx.1 y hh)
    · rename_i hgt
      refine List.pairwise_cons.2 ⟨?_, ih hx.2⟩
      intro y hy
      rcases (mem_insertByFire tm y xs).1 hy with hh | hh
      · rw [hh]; omega
      · exact hx.1 y hh

theorem sortByFire_sorted (l : List Timer) :
    (sortByFire l).Pairwise (fun x y => fireAt x ≤ fireAt y) := by
  rw [sortByFire]
  induction l with
  | nil => simp
  | cons x xs ih =>
    rw [List.foldr_cons]
    exact insertByFire_pairwise x _ ih

/-! ### Concrete instances used by witnesses and counterexamples -/

def envAll : Env := ⟨fun _ => true, fun _ => true⟩

def envNoRemote : Env := ⟨fun _ => false, fun _ => true⟩

def envNoLaunch : Env := ⟨fun _ => true, fun _ => false⟩

def credAlice : Credential := ⟨1, "alice", "pw"⟩

def credAlice2 : Credential := ⟨2, "alice", "pw2"⟩

def aucPast : Auction := ⟨5, some (-10), "stg/1234", some 5, "addr", "alice", none⟩

def aucFut : Auction := ⟨6, some 2000, "stg/9", some 3, "addr", "alice", none⟩

def aucZero : Auction := ⟨7, some 50, "stg/8", some 0, "addr", "zero", none⟩

def aucA1 : Auction := ⟨1, some 200, "stg/1", some 1, "a1", "alice", none⟩

def aucA2 : Auction := ⟨2, some 100, "stg/2", some 1, "a2", "alice", none⟩

def st0 (store : Store) : BidState := ⟨[], [], store, [], 0, 0, 0, []⟩

def stLogged : BidState := ⟨[("alice", ⟨true⟩)], [], ⟨[credAlice], [aucPast]⟩, [], 0, 0, 0, []⟩

def stFresh : BidState := ⟨[("alice", ⟨false⟩)], [], ⟨[credAlice], [aucPast]⟩, [], 0, 0, 0, []⟩

/-! ### The claims -/

/-- C8: after the `stop-update` handler ("cancel all pending") returns, the
pending-timer set is empty, so a previously armed auction whose deadline
subsequently arrives (`fireDue` at any later time) produces no bid attempt
and leaves the state untouched; every session and its authentication state
(`browserMap`, including each `isLoggedIn` flag) is exactly as before the
cancellation. -/
theorem C8_cancel_keeps_sessions (env : Env) (t : Int) (s : BidState) :
    (stopUpdate s).2.bidTimeouts = [] ∧
    (stopUpdate s).2.browserMap = s.browserMap ∧
    (stopUpdate s).1 = "All scheduled bids canceled. Browsers remain open." ∧
    fireDue env t (stopUpdate s).2 = (stopUpdate s).2 ∧
    attemptsOf (fireDue env t (stopUpdate s).2).log = attemptsOf s.log := by
  refine ⟨rfl, rfl, rfl, fireDue_of_no_timers env t _ rfl, ?_⟩
  rw [fireDue_of_no_timers env t _ rfl]
  rfl

/-- C9: when a session's `isLoggedIn` flag is already true, `ensureLoggedIn`
returns the state completely unchanged — no navigation, typing or click is
performed (the log is untouched because the whole state is) — and a second
call is equally a no-op (idempotence). -/
theorem C9_login_idempotent (env : Env) (u p : String) (s : BidState) (sess : Session)
    (hs : lookupSession s.browserMap u = some sess) (hflag : sess.isLoggedIn = true) :
    ensureLoggedIn env u p s = s ∧
    ensureLoggedIn env u p (ensureLoggedIn env u p s) = s := by
  have h := ensureLoggedIn_of_loggedIn env u p s sess hs hflag
  exact ⟨h, by rw [h, h]⟩

/-- C9 witness: on a state whose alice session is logged in, `ensureLoggedIn`
is the identity. -/
theorem C9_login_idempotent_witness :
    ensureLoggedIn envAll "alice" "pw" stLogged = stLogged :=
  (C9_login_idempotent envAll "alice" "pw" stLogged ⟨true⟩ (by decide) rfl).1

/-- C1: in a per-account scheduling pass (`handleUserBids`), provided the
browser launch succeeds, every eligible auction (`parseFloat(bidProxy) > 0`)
is dispatched by its deadline: an empty deadline is skipped — no timer is
ever armed for it and no bid attempt is made for it; a deadline with
`deadline - now ≤ 0` has the bid executor invoked synchronously within the
pass (an `attemptBid` for it appears in the pass's log); and a deadline with
`deadline - now > 0` gets a timer registered for exactly the delay
`deadline - now`. -/
theorem C1_eligible_dispatch (env : Env) (now : Int) (cred : Credential)
    (ua : List Auction) (s : BidState) (a : Auction)
    (hL : ∀ n, env.launchOk n = true) (ha : a ∈ ua.filter posBid) :
    (a.timeToBid = none →
       (∀ tm ∈ (handleUserBids env now cred ua s).1.bidTimeouts,
          tm ∈ s.bidTimeouts ∨ tm.auction ≠ a) ∧
       ((a, cred.username) ∈ attemptsOf (handleUserBids env now cred ua s).1.log →
         (a, cred.username) ∈ attemptsOf s.log)) ∧
    (∀ t, a.timeToBid = some t → t - now ≤ 0 →
       (a, cred.username) ∈ attemptsOf (handleUserBids env now cred ua s).1.log) ∧
    (∀ t, a.timeToBid = some t → 0 < t - now →
       ∃ tm ∈ (handleUserBids env now cred ua s).1.bidTimeouts,
         tm.auction = a ∧ tm.username = cred.username ∧ tm.delay = t - now) := by
  obtain ⟨⟨nt, hnt, hnts, hm⟩, hatt⟩ := hub_main env now cred ua s hL
  refine ⟨?_, ?_, ?_⟩
  · intro hnone
    constructor
    · intro tm htm
      rw [hnt] at htm
      rcases List.mem_append.1 htm with hh | hh
      · exact Or.inl hh
      · right
        intro heq
        have hmem : timerSpec tm ∈ armedSpec now cred.username ua := by
          rw [← hnts]
          exact List.mem_map_of_mem _ hh
        obtain ⟨_, _, t, ht, _, _⟩ := armedSpec_mem now cred.username ua _ hmem
        rw [show (timerSpec tm).1 = tm.auction from rfl, heq, hnone] at ht
        cases ht
    · intro hin
      rw [hatt] at hin
      rcases List.mem_append.1 hin with hh | hh
      · exact hh
      · obtain ⟨_, _, t, ht, _⟩ := immediateSpec_mem now cred.username ua _ hh
        rw [show ((a, cred.username) : Auction × String).1 = a from rfl, hnone] at ht
        cases ht
  · intro t ht hle
    rw [hatt]
    exact List.mem_append.2 (Or.inr (immediateSpec_of_mem now cred.username ua a ha t ht hle))
  · intro t ht hpos
    have hmem : (a, cred.username, t - now) ∈ armedSpec now cred.username ua :=
      armedSpec_of_mem now cred.username ua a ha t ht hpos
    rw [← hnts] at hmem
    rcases List.mem_map.1 hmem with ⟨tm, htm, hspec⟩
    refine ⟨tm, ?_, ?_, ?_, ?_⟩
    · rw [hnt]
      exact List.mem_append.2 (Or.inr htm)
    · exact congrArg (fun x => x.1) hspec
    · exact congrArg (fun x => x.2.1) hspec
    · exact congrArg (fun x => x.2.2) hspec

/-- C1 witness: for the concrete eligible auction with a past deadline, the
pass makes a synchronous bid attempt. -/
theorem C1_eligible_dispatch_witness :
    (aucPast, "alice") ∈
      attemptsOf (handleUserBids envAll 0 credAlice [aucPast] (st0 ⟨[credAlice], [aucPast]⟩)).1.log :=
  (C1_eligible_dispatch envAll 0 credAlice [aucPast] (st0 ⟨[credAlice], [aucPast]⟩) aucPast
    (fun _ => rfl) (by decide)).2.1 (-10) rfl (by decide)

/-- C4: if any remote step of the bid-submission sequence fails,
`placeBid` leaves the durable store, the in-memory auction records (and so
every outcome timestamp), the session registry and the timer set untouched;
its log grows by exactly the attempt marker followed by a prefix of the
step sequence (each step attempted at most once — no retry), and no outcome
save is recorded. -/
theorem C4_interaction_failure_aborts (env : Env) (now : Int) (a : Auction) (u : String)
    (s : BidState)
    (hfail : ∃ i, i < numFallible (bidSteps a u) ∧ env.remote (s.step + i) = false) :
    (placeBid env now a u s).store = s.store ∧
    (placeBid env now a u s).memAuctions = s.memAuctions ∧
    (placeBid env now a u s).browserMap = s.browserMap ∧
    (placeBid env now a u s).bidTimeouts = s.bidTimeouts ∧
    (∃ k, k ≤ (bidSteps a u).length ∧
       (placeBid env now a u s).log = s.log ++ Action.attemptBid a u :: (bidSteps a u).take k) ∧
    (∀ i t2, Action.saveOutcome i t2 ∈ (placeBid env now a u s).log →
       Action.saveOutcome i t2 ∈ s.log) := by
  obtain ⟨hsto, hmem, k, hk, hlog⟩ := placeBid_fail_core env now a u s hfail
  refine ⟨hsto, hmem, (placeBid_fields env now a u s).1, (placeBid_fields env now a u s).2.1,
    ⟨k, hk, hlog⟩, ?_⟩
  intro i t2 hin
  rw [hlog] at hin
  rcases List.mem_append.1 hin with hh | hh
  · exact hh
  · exfalso
    rcases List.mem_cons.1 hh with hh2 | hh2
    · cases hh2
    · rcases bidSteps_shape a u _ (List.take_subset _ _ hh2) with hf | hset
      · simp [fallibleAct] at hf
      · cases hset

/-- C4 witness: with every remote interaction failing, `placeBid` leaves
the store unchanged. -/
theorem C4_interaction_failure_aborts_witness :
    (placeBid envNoRemote 0 aucPast "alice" (st0 ⟨[credAlice], [aucPast]⟩)).store
      = (st0 ⟨[credAlice], [aucPast]⟩).store :=
  (C4_interaction_failure_aborts envNoRemote 0 aucPast "alice"
    (st0 ⟨[credAlice], [aucPast]⟩) ⟨0, by decide, rfl⟩).1

/-- C5 counterexample: the claim "whenever placeBid completes all steps
without error it stamps the auction's outcome timestamp and persists the
stamped record to the durable store" fails when no record with the
auction's id exists in the store at save time (the source's
`findIndex` returns -1 and `saveData` is skipped): with every step
succeeding, the store is left unchanged and no outcome save is recorded. -/
theorem C5_counterexample :
    (placeBid envAll 7 aucPast "alice" (st0 ⟨[credAlice], []⟩)).store
        = (st0 ⟨[credAlice], []⟩).store ∧
    Action.saveOutcome 5 7 ∉ (placeBid envAll 7 aucPast "alice" (st0 ⟨[credAlice], []⟩)).log := by
  constructor
  · decide
  · decide

/-- C5 amended: whenever `placeBid` completes all steps of the
bid-submission sequence without error, it stamps the auction's outcome
timestamp with the wall-clock `now` on the in-memory auction record, and,
provided a record with the auction's id is present in the durable store,
persists a record stamped `some now` there and logs the save; if no such
record is present, the store is left unchanged. -/
theorem C5_success_records_outcome (env : Env) (now : Int) (a : Auction) (u : String)
    (s : BidState)
    (hok : ∀ i, i < numFallible (bidSteps a u) → env.remote (s.step + i) = true) :
    (placeBid env now a u s).memAuctions
        = s.memAuctions.map (fun x => if x.id = a.id then stampAuction now x else x) ∧
    (∀ i, s.store.auctions.findIdx? (fun x => x.id == a.id) = some i →
       Action.saveOutcome a.id now ∈ (placeBid env now a u s).log ∧
       ∃ x ∈ (placeBid env now a u s).store.auctions, x.id = a.id ∧ x.bidPlaced = some now) ∧
    (s.store.auctions.findIdx? (fun x => x.id == a.id) = none →
       (placeBid env now a u s).store = s.store) :=
  placeBid_ok_core env now a u s hok

/-- C5 witness: with the auction present in the store and all steps
succeeding, the outcome save is recorded. -/
theorem C5_success_records_outcome_witness :
    Action.saveOutcome 5 7 ∈
      (placeBid envAll 7 aucPast "alice" (st0 ⟨[credAlice], [aucPast]⟩)).log :=
  ((C5_success_records_outcome envAll 7 aucPast "alice" (st0 ⟨[credAlice], [aucPast]⟩)
    (by decide)).2.1 0 (by decide)).1

/-- C10: when an account's session exists but is not authenticated and some
login step fails, `handleUserBids` proceeds anyway: the error is swallowed
inside `ensureLoggedIn`, the session's `isLoggedIn` flag remains false
(the registry is unchanged), and the account's eligible auctions are still
classified and their immediate bid attempts still made, exactly as with a
successful login. -/
theorem C10_login_failure_proceeds (env : Env) (now : Int) (cred : Credential)
    (ua : List Auction) (s : BidState) (sess : Session)
    (hs : lookupSession s.browserMap cred.username = some sess)
    (hnot : sess.isLoggedIn = false)
    (hfail : ∃ i, i < numFallible (loginSteps cred.username cred.password) ∧
       env.remote (s.step + i) = false) :
    lookupSession (handleUserBids env now cred ua s).1.browserMap cred.username
        = some sess ∧
    sess.isLoggedIn = false ∧
    attemptsOf (handleUserBids env now cred ua s).1.log
        = attemptsOf s.log ++ immediateSpec now cred.username ua := by
  rw [handleUserBids]
  dsimp only
  split
  · rename_i hemp
    have hfil : ua.filter posBid = [] := by simpa using hemp
    exact ⟨hs, hnot, by simp [immediateSpec, hfil]⟩
  · rw [hs]
    refine ⟨?_, hnot, ?_⟩
    · rw [(foldProcess_preserve env now cred.username (ua.filter posBid) _).1,
        ensureLoggedIn_fail env cred.username cred.password s sess hs hnot hfail]
      exact hs
    · rw [foldProcess_attempts, ensureLoggedIn_attempts]
      rfl

/-- C10 witness: with every remote interaction failing, the alice session
stays unauthenticated and the eligible past-deadline auction is still
attempted. -/
theorem C10_login_failure_proceeds_witness :
    lookupSession (handleUserBids envNoRemote 0 credAlice [aucPast] stFresh).1.browserMap
        "alice" = some ⟨false⟩ ∧
    attemptsOf (handleUserBids envNoRemote 0 credAlice [aucPast] stFresh).1.log
        = attemptsOf stFresh.log ++ immediateSpec 0 "alice" [aucPast] := by
  have h := C10_login_failure_proceeds envNoRemote 0 credAlice [aucPast] stFresh ⟨false⟩
    (by decide) rfl ⟨0, by decide, rfl⟩
  exact ⟨h.1, h.2.2⟩

/-- C2: for an account name `u` all of whose auctions in the store have a
non-positive (or unparseable) `bidProxy`, a scheduling pass never creates a
session for it (`browserMap[u]` is exactly as before), never launches a
browser or starts a login for it (no such action enters the log), and no
timer armed by the pass carries a non-eligible auction: every timer in the
post-pass set has `parseFloat(bidProxy) > 0`. -/
theorem C2_ineligible_gets_no_work (env : Env) (now : Int) (s : BidState) (u : String)
    (hu : ∀ a ∈ s.store.auctions, a.account = u → posBid a = false) :
    lookupSession (fetchAuctionsData env now s).2.browserMap u
      = lookupSession s.browserMap u ∧
    (Action.launch u ∈ (fetchAuctionsData env now s).2.log → Action.launch u ∈ s.log) ∧
    (Action.loginStart u ∈ (fetchAuctionsData env now s).2.log →
       Action.loginStart u ∈ s.log) ∧
    (∀ tm ∈ (fetchAuctionsData env now s).2.bidTimeouts, posBid tm.auction = true) := by
  have hfil : ∀ c : Credential, c.username = u →
      (userAuctionsFor s.store.auctions c.username).filter posBid = [] := by
    intro c hc
    rw [List.filter_eq_nil_iff]
    intro a ha
    have hm := (mem_userAuctionsFor s.store.auctions c.username a).1 ha
    rw [hu a hm.1 (hm.2.2.trans hc)]
    simp
  refine ⟨fetch_lookup env now s u hu, ?_, ?_, ?_⟩
  · intro h
    rcases fetch_launch_mem env now s u h with h1 | ⟨c, _, hc, hne⟩
    · exact h1
    · exact absurd (hfil c hc) hne
  · intro h
    rcases fetch_loginStart_mem env now s u h with h1 | ⟨c, _, hc, hne⟩
    · exact h1
    · exact absurd (hfil c hc) hne
  · intro tm htm
    exact (fetch_timers_all env now s tm htm).1

/-- C2 witness: an account whose single auction has `bidProxy = 0` gets no
session during the pass. -/
theorem C2_ineligible_gets_no_work_witness :
    lookupSession
      (fetchAuctionsData envAll 0
        (st0 ⟨[credAlice, ⟨2, "zero", "p"⟩], [aucPast, aucZero]⟩)).2.browserMap "zero"
      = none :=
  (C2_ineligible_gets_no_work envAll 0
    (st0 ⟨[credAlice, ⟨2, "zero", "p"⟩], [aucPast, aucZero]⟩) "zero" (by decide)).1

/-- C3 counterexample: "at most one live timer per auction exists at any
time" fails as stated: with two credentials sharing the username "alice"
(username uniqueness is advisory and not enforced), one scheduling pass
arms two timers for the single auction with id 6. -/
theorem C3_counterexample :
    ((fetchAuctionsData envAll 0 (st0 ⟨[credAlice, credAlice2], [aucFut]⟩)).2.bidTimeouts.map
        Timer.auctionId = [6, 6]) ∧
    ¬ ((fetchAuctionsData envAll 0
        (st0 ⟨[credAlice, credAlice2], [aucFut]⟩)).2.bidTimeouts.map Timer.auctionId).Nodup := by
  constructor
  · decide
  · decide

/-- C3 amended: every `fetch-auctions-data` pass first cancels all armed
timers, so (given launches succeed) the timers after a pass are exactly
those computed from the store it read — independent of any previously
armed timers — and calling the pass twice back-to-back leaves exactly the
timers implied by the second call's inputs; provided additionally that
credential usernames are pairwise distinct and auction ids are pairwise
distinct, at most one live timer per auction exists (the armed timers'
auction ids are pairwise distinct). -/
theorem C3_cancel_before_reschedule (env : Env) (now now2 : Int) (s : BidState)
    (hL : ∀ n, env.launchOk n = true)
    (hU : (s.store.credentials.map Credential.username).Nodup)
    (hI : (s.store.auctions.map Auction.id).Nodup) :
    ((fetchAuctionsData env now s).2.bidTimeouts.map timerSpec = schedSpec now s.store) ∧
    ((fetchAuctionsData env now2 (fetchAuctionsData env now s).2).2.bidTimeouts.map timerSpec
       = schedSpec now2 (fetchAuctionsData env now s).2.store) ∧
    ((fetchAuctionsData env now s).2.bidTimeouts.map Timer.auctionId).Nodup := by
  refine ⟨(fetch_timers_spec env now s hL).1, (fetch_timers_spec env now2 _ hL).1, ?_⟩
  have hcongr : (fetchAuctionsData env now s).2.bidTimeouts.map Timer.auctionId
      = (fetchAuctionsData env now s).2.bidTimeouts.map (fun tm => tm.auction.id) :=
    List.map_congr_left (fun tm htm => ((fetch_timers_spec env now s hL).2 tm htm).1)
  have hcomp : (fetchAuctionsData env now s).2.bidTimeouts.map (fun tm => tm.auction.id)
      = ((fetchAuctionsData env now s).2.bidTimeouts.map timerSpec).map (fun x => x.1.id) := by
    rw [List.map_map]
    rfl
  rw [hcongr, hcomp, (fetch_timers_spec env now s hL).1]
  exact schedSpec_ids_nodup now s.store hU hI

/-- C3 amended witness: on a store with one credential and one future
auction, the armed timers are exactly the schedule spec of that store. -/
theorem C3_cancel_before_reschedule_witness :
    (fetchAuctionsData envAll 0 (st0 ⟨[credAlice], [aucFut]⟩)).2.bidTimeouts.map timerSpec
      = schedSpec 0 (⟨[credAlice], [aucFut]⟩ : Store) :=
  (C3_cancel_before_reschedule envAll 0 0 (st0 ⟨[credAlice], [aucFut]⟩)
    (fun _ => rfl) (by decide) (by decide)).1

/-- C6 counterexample: the bid attempts for one account do not execute in
the order the auctions were iterated: auction 1 is iterated first but has
the later deadline (+200ms) while auction 2 (iterated second) is due at
+100ms, so after the pass arms both timers and the clock reaches +300ms,
the attempts run as auction 2 then auction 1 — deadline order, not
iteration order. -/
theorem C6_counterexample :
    ([aucA1, aucA2].filter posBid = [aucA1, aucA2]) ∧
    attemptsOf (fireDue envAll 300
        ((handleUserBids envAll 0 credAlice [aucA1, aucA2]
          (st0 ⟨[credAlice], [aucA1, aucA2]⟩)).1)).log
      = [(aucA2, "alice"), (aucA1, "alice")] ∧
    ([(aucA2, "alice"), (aucA1, "alice")] : List (Auction × String)) ≠
      ([aucA1, aucA2].filter posBid).map (fun a => (a, "alice")) := by
  refine ⟨by decide, by decide, by decide⟩

/-- C6 amended: within one account, the bid attempts made synchronously by
the scheduling pass execute sequentially in the order the auctions were
iterated (the pass's log gains exactly the eligible past-deadline auctions
in list order); the attempts fired later by armed timers execute in
fire-time order — earliest due time first, ties in arming order — which
need not be the iteration order: `fireDue` appends attempts for exactly
the due timers sorted by fire time, and that sort is ascending in fire
time. -/
theorem C6_per_account_order (env : Env) (now : Int) (cred : Credential)
    (ua : List Auction) (s : BidState) (hL : ∀ n, env.launchOk n = true) :
    attemptsOf (handleUserBids env now cred ua s).1.log
      = attemptsOf s.log ++ immediateSpec now cred.username ua ∧
    (∀ (t : Int) (s2 : BidState),
      attemptsOf (fireDue env t s2).log = attemptsOf s2.log ++
        (sortByFire (s2.bidTimeouts.filter (fun tm => decide (fireAt tm ≤ t)))).map
          (fun tm => (tm.auction, tm.username))) ∧
    (∀ l : List Timer, (sortByFire l).Pairwise (fun x y => fireAt x ≤ fireAt y)) :=
  ⟨(hub_main env now cred ua s hL).2, fun t s2 => fireDue_attempts env t s2,
   sortByFire_sorted⟩

/-- C6 amended witness: the concrete pass attempts exactly its eligible
past-deadline auction. -/
theorem C6_per_account_order_witness :
    attemptsOf (handleUserBids envAll 0 credAlice [aucPast]
        (st0 ⟨[credAlice], [aucPast]⟩)).1.log
      = [(aucPast, "alice")] :=
  ((C6_per_account_order envAll 0 credAlice [aucPast] (st0 ⟨[credAlice], [aucPast]⟩)
    (fun _ => rfl)).1).trans (by decide)

/-- C7 counterexample: a scheduling pass can raise: `puppeteer.launch` in
`handleUserBids` is not inside any try/catch, so when the browser launch
fails the per-account task rejects and the `fetch-auctions-data` handler
rejects with it — the caller receives an exception, not the auction
collection. -/
theorem C7_counterexample :
    (fetchAuctionsData envNoLaunch 0 (st0 ⟨[credAlice], [aucPast]⟩)).1
      = Except.error () := by
  rfl

/-- C7 amended: provided every browser launch succeeds, a scheduling pass
always returns the (possibly partially updated) auction collection to its
caller and never raises: every login or bid-interaction failure is caught
where it occurs, and none aborts sibling accounts or sibling auctions —
the set of bid attempts and the set of armed timers are the same under an
arbitrarily failing remote oracle as under any other. -/
theorem C7_failures_contained (env env2 : Env) (now : Int) (s : BidState)
    (hL : ∀ n, env.launchOk n = true) (hL2 : ∀ n, env2.launchOk n = true) :
    (fetchAuctionsData env now s).1
        = Except.ok (fetchAuctionsData env now s).2.memAuctions ∧
    attemptsOf (fetchAuctionsData env now s).2.log
        = attemptsOf (fetchAuctionsData env2 now s).2.log ∧
    (fetchAuctionsData env now s).2.bidTimeouts.map timerSpec
        = (fetchAuctionsData env2 now s).2.bidTimeouts.map timerSpec := by
  refine ⟨fetch_result env now s hL, ?_, ?_⟩
  · rw [fetch_attempts env now s hL, fetch_attempts env2 now s hL2]
  · rw [(fetch_timers_spec env now s hL).1, (fetch_timers_spec env2 now s hL2).1]

/-- C7 amended witness: on a concrete store, the pass with every remote
interaction failing makes the same bid attempts as the pass with every
interaction succeeding, and returns the auction collection. -/
theorem C7_failures_contained_witness :
    attemptsOf (fetchAuctionsData envNoRemote 0 (st0 ⟨[credAlice], [aucPast]⟩)).2.log
      = attemptsOf (fetchAuctionsData envAll 0 (st0 ⟨[credAlice], [aucPast]⟩)).2.log :=
  (C7_failures_contained envNoRemote envAll 0 (st0 ⟨[credAlice], [aucPast]⟩)
    (fun _ => rfl) (fun _ => rfl)).2.1

end Bidder
